import Mathlib

/-!
Verification of the profound-utils DDS/JSON structural codec.

The JavaScript sources (ddsToJson.js, jsonToDds.js, verifyConvert.js and the
shared async utilities) are shallowly embedded here.  JavaScript strings are
modelled as `List Char`; the JS string primitives used by the code
(`substr`, `substring`, `lastIndexOf`, `trimRight`, ...) are modelled as
executable Lean functions with the same edge-case behaviour (negative
indices, out-of-range clamping, argument swapping).  Code that can throw
(`JSON.parse` failures, property access on `undefined`/`null`) is modelled
in an `Except` monad over an explicit error type.
-/

namespace ProfoundUtils

/-- The single-quote character (code 39), written via `Char.ofNat`. -/
def squote : Char := Char.ofNat 39

/-- `n` blank characters. -/
def blanks (n : Nat) : List Char := List.replicate n ' '

/-- JavaScript whitespace test (the ASCII part plus NBSP and BOM), as used by
`trim`/`trimRight` and by `parseInt` argument trimming. -/
def isJsSpace (c : Char) : Bool :=
  c = ' ' || c = '\t' || c = '\n' || c = '\r' || c.toNat = 11 || c.toNat = 12 ||
  c.toNat = 0xA0 || c.toNat = 0xFEFF

/-- JS `s.substr(start, cnt)` for non-negative arguments. -/
def jsSubstrN (s : List Char) (start cnt : Nat) : List Char :=
  (s.drop start).take cnt

/-- JS `s.substring(a, b)`: both arguments are clamped into `[0, s.length]`
and swapped when out of order. -/
def jsSubstring (s : List Char) (a b : Int) : List Char :=
  let n : Int := s.length
  let a' := min (max a 0) n
  let b' := min (max b 0) n
  let lo := min a' b'
  let hi := max a' b'
  (s.take hi.toNat).drop lo.toNat

/-- Helper for `jsLastIndexOf`: scan the suffixes of `s` from the left,
remembering the index of the last position where `pat` is a prefix. -/
def jsLastIndexOfAux (pat : List Char) : List Char → Nat → Option Nat → Option Nat
  | [], i, best => if pat.isPrefixOf [] then some i else best
  | c :: t, i, best =>
      jsLastIndexOfAux pat t (i + 1) (if pat.isPrefixOf (c :: t) then some i else best)

/-- JS `s.lastIndexOf(pat)`: the largest index at which `pat` occurs in `s`,
or `-1` when it does not occur. -/
def jsLastIndexOf (s pat : List Char) : Int :=
  match jsLastIndexOfAux pat s 0 none with
  | some i => (i : Int)
  | none => -1

/-- JS `s.trimRight()`. -/
def jsTrimRight (s : List Char) : List Char :=
  (s.reverse.dropWhile isJsSpace).reverse

/-- JS `s.trim()`. -/
def jsTrim (s : List Char) : List Char :=
  jsTrimRight (s.dropWhile isJsSpace)

/-- JS `s.toUpperCase()` (ASCII). -/
def jsToUpper (s : List Char) : List Char :=
  s.map Char.toUpper

/-- Decimal digit test. -/
def isDigitB (c : Char) : Bool := c.isDigit

/-- Hexadecimal digit test. -/
def isHexDigitB (c : Char) : Bool :=
  c.isDigit || ('a' ≤ c && c ≤ 'f') || ('A' ≤ c && c ≤ 'F')

/-- `isNaN(Number.parseInt(s))`: `parseInt` trims whitespace, accepts an
optional sign, auto-detects a `0x`/`0X` hex prefix, and yields `NaN` exactly
when no digit can be consumed. -/
def isNaNParseInt (s : List Char) : Bool :=
  let t1 := s.dropWhile isJsSpace
  let t2 := match t1 with
    | c :: r => if c = '+' || c = '-' then r else t1
    | [] => t1
  match t2 with
  | '0' :: x :: r =>
      if x = 'x' || x = 'X' then
        match r with
        | d :: _ => !(isHexDigitB d)
        | [] => true
      else false
  | d :: _ => !(isDigitB d)
  | [] => true

/-- Undo the IBM i quote-doubling escape: `str.replace(/''/g, "'")`
(left-to-right, non-overlapping). -/
def unescapeQuotes : List Char → List Char
  | [] => []
  | [c] => [c]
  | c1 :: c2 :: rest =>
      if c1 = squote ∧ c2 = squote then squote :: unescapeQuotes rest
      else c1 :: unescapeQuotes (c2 :: rest)

/-- Apply the quote-doubling escape: `str.replace(/'/g, "''")`. -/
def escapeQuotes : List Char → List Char
  | [] => []
  | c :: rest =>
      if c = squote then squote :: squote :: escapeQuotes rest
      else c :: escapeQuotes rest

/-!
## The Chunker (`chunkData` in shared/asyncUtils.js)

`chunkData(data, bytes)` repeatedly cuts a chunk of at most `bytes`
characters (preferring not to end on a trailing-space run: it walks backward
from the size limit to the first non-space, falling back to the full cut when
the whole candidate is spaces), and after every push runs `fixSingleQuotes`,
which moves leading single quotes of the newest chunk onto the end of the
previous chunk.

The mutable `chunks` array is modelled as a list in reverse order (newest
chunk first); the final result reverses it.  The `while (data.length > bytes)`
loop is modelled with explicit fuel: each iteration consumes at least one
character whenever `bytes > 0`, so fuel `data.length` always suffices.
-/

/-- The inner `while (chunkSize > 0 && data.substr(chunkSize-1,1) === ' ')`
walk: starting from `k`, step down while the character just before the cut is
a blank. -/
def backoff (data : List Char) : Nat → Nat
  | 0 => 0
  | k + 1 => if data.get? k = some ' ' then backoff data k else k + 1

/-- The chunk size chosen for one iteration: back off over trailing blanks,
falling back to the full size when everything was blank. -/
def chunkSize (data : List Char) (bytes : Nat) : Nat :=
  if backoff data bytes = 0 then bytes else backoff data bytes

/-- `fixSingleQuotes` on the reversed chunk list: while the newest chunk
starts with a single quote, move that quote to the end of the previous chunk.
Runs only when there are at least two chunks. -/
def fixSingleQuotes : List (List Char) → List (List Char)
  | last :: prev :: rest =>
      (last.dropWhile (· = squote)) :: (prev ++ last.takeWhile (· = squote)) :: rest
  | l => l

/-- The code after the main loop: push the remaining data (when non-empty)
and repair quotes once more. -/
def chunkFinal (data : List Char) (acc : List (List Char)) : List (List Char) :=
  if 0 < data.length then fixSingleQuotes (data :: acc) else acc

/-- The main `while (data.length > bytes)` loop of `chunkData`, with fuel. -/
def chunkLoop (bytes : Nat) : Nat → List Char → List (List Char) → List (List Char)
  | 0, data, acc => chunkFinal data acc
  | fuel + 1, data, acc =>
      if bytes < data.length then
        chunkLoop bytes fuel (data.drop (chunkSize data bytes))
          (fixSingleQuotes (data.take (chunkSize data bytes) :: acc))
      else chunkFinal data acc

/-- `chunkData(data, bytes)` from shared/asyncUtils.js. -/
def chunkData (data : List Char) (bytes : Nat) : List (List Char) :=
  (chunkLoop bytes data.length data []).reverse

/-- The newest chunk (head of the reversed accumulator) never begins with a
single quote, unless there is at most one chunk. -/
def HeadNoQuote (l : List (List Char)) : Prop :=
  ∀ c, l.head? = some c → c.head? ≠ some squote

/-!
## Sequence/date prefix stripping

ddsToJson.js (main), jsonToDds.js (main) and verifyConvert.js (main) each
handle the optional 12-character numeric sequence/date prefix.  Both
converters map over ALL lines, testing each line individually; verifyConvert
additionally tests only the first line to decide whether a rewritten copy of
the file is needed, but the rewrite itself uses the same per-line map.
-/

/-- The per-line strip used by all three tools:
`isNaN(Number.parseInt(srcLine.substr(0, 12))) ? srcLine : srcLine.substr(12)`. -/
def stripSeqLine (l : List Char) : List Char :=
  if isNaNParseInt (jsSubstrN l 0 12) then l else l.drop 12

/-- Prefix handling in ddsToJson.js `main` (line 339). -/
def ddsToJsonStripLines (lines : List (List Char)) : List (List Char) :=
  lines.map stripSeqLine

/-- Prefix handling in jsonToDds.js `main` (lines 337–338). -/
def jsonToDdsStripLines (lines : List (List Char)) : List (List Char) :=
  lines.map stripSeqLine

/-- Prefix handling in verifyConvert.js `main` (lines 62–78): the first line
is tested once to decide whether a stripped temp copy is written; the copy
itself is produced by the same per-line map. -/
def verifyConvertSourceLines (lines : List (List Char)) : List (List Char) :=
  if isNaNParseInt (jsSubstrN (lines.headD []) 0 12) then lines
  else lines.map stripSeqLine

/-- Modelled from the spec: document-wide prefix stripping, decided once by
testing whether the 12-character prefix of the FIRST line parses as a
number, and then stripped from every line. -/
def specStripDocumentWide (lines : List (List Char)) : List (List Char) :=
  if isNaNParseInt (jsSubstrN (lines.headD []) 0 12) then lines
  else lines.map (·.drop 12)

/-!
## JSON values

The payloads embedded in DDS documents are JSON texts handled by the code via
`JSON.parse` and `JSON.stringify`.  `Jay` models JSON values, restricted to
the integer fragment of JSON numbers (all payloads used in theorems below
stay inside this fragment; fractional/exponent numbers and `\u` string
escapes are rejected by the embedded parser).  All recursive functions over
`Jay` and over JSON text are written with explicit `Nat` fuel so that they
reduce inside the kernel; the fuel supplied at each call site is always
sufficient (`sizeOf` for values, a multiple of the text length for parsing).
-/

/-- A JSON value (integer-number fragment). -/
inductive Jay where
  | jnull : Jay
  | jbool : Bool → Jay
  | jnum : Int → Jay
  | jstr : List Char → Jay
  | jarr : List Jay → Jay
  | jobj : List (List Char × Jay) → Jay

/-- A JavaScript exception, as far as the converters can raise one. -/
inductive JsErr where
  /-- `TypeError: Cannot read properties of undefined/null (reading prop)`. -/
  | typeErrorRead (prop : List Char) : JsErr
  /-- `TypeError: x.prop is not a function`. -/
  | typeErrorNotFunction (prop : List Char) : JsErr
  /-- `TypeError: x is not iterable`. -/
  | typeErrorNotIterable : JsErr
  /-- `SyntaxError` from `JSON.parse`, carrying the offending text. -/
  | syntaxErrorJson (src : List Char) : JsErr
deriving DecidableEq

/-- JSON whitespace accepted by `JSON.parse`. -/
def jsonWs (c : Char) : Bool :=
  c = ' ' || c = '\t' || c = '\n' || c = '\r'

/-- First-match lookup of a key in a JSON object member list. -/
def jobjLookup : List (List Char × Jay) → List Char → Option Jay
  | [], _ => none
  | (k, v) :: rest, key => if k = key then some v else jobjLookup rest key

/-- JS property access `j[key]`: `undefined`/`null` receivers throw a
`TypeError`; objects look the key up; all other values yield `undefined`
(modelled as `none`) for the non-numeric keys the converters use. -/
def jAccess (j : Jay) (key : List Char) : Except JsErr (Option Jay) :=
  match j with
  | .jnull => .error (.typeErrorRead key)
  | .jobj kvs => .ok (jobjLookup kvs key)
  | _ => .ok none

/-- JS `typeof v === "object"`: true for objects, arrays and `null`. -/
def typeofObject : Jay → Bool
  | .jnull => true
  | .jarr _ => true
  | .jobj _ => true
  | _ => false

/-- JS truthiness of a JSON value. -/
def jTruthy : Jay → Bool
  | .jnull => false
  | .jbool b => b
  | .jnum n => n ≠ 0
  | .jstr s => s ≠ []
  | .jarr _ => true
  | .jobj _ => true

/-- Decimal rendering of an integer, as `JSON.stringify` prints it. -/
def intToDecimal (n : Int) : List Char :=
  if n < 0 then '-' :: (Nat.repr n.natAbs).toList else (Nat.repr n.natAbs).toList

/-- JSON string-literal escaping as performed by `JSON.stringify` (the
characters appearing in this development need no `\u` forms). -/
def jstrEscape : List Char → List Char
  | [] => []
  | c :: r =>
      if c = '"' then '\\' :: '"' :: jstrEscape r
      else if c = '\\' then '\\' :: '\\' :: jstrEscape r
      else if c = '\n' then '\\' :: 'n' :: jstrEscape r
      else if c = '\r' then '\\' :: 'r' :: jstrEscape r
      else if c = '\t' then '\\' :: 't' :: jstrEscape r
      else c :: jstrEscape r

/-- A JSON string literal. -/
def jstrLit (s : List Char) : List Char :=
  '"' :: jstrEscape s ++ ['"']

/-- Join a list of pieces with commas. -/
def commaJoin : List (List Char) → List Char
  | [] => []
  | [x] => x
  | x :: y :: r => x ++ ',' :: commaJoin (y :: r)

mutual

/-- `JSON.stringify` on a JSON value (object key insertion order is
preserved, matching the JS engine). -/
def jstringify : Jay → List Char
  | .jnull => 'n' :: 'u' :: 'l' :: 'l' :: []
  | .jbool true => 't' :: 'r' :: 'u' :: 'e' :: []
  | .jbool false => 'f' :: 'a' :: 'l' :: 's' :: 'e' :: []
  | .jnum n => intToDecimal n
  | .jstr s => jstrLit s
  | .jarr l => '[' :: jstringifyArr l ++ [']']
  | .jobj kvs => '{' :: jstringifyObj kvs ++ ['}']

/-- Comma-separated serialization of array elements. -/
def jstringifyArr : List Jay → List Char
  | [] => []
  | [x] => jstringify x
  | x :: y :: r => jstringify x ++ ',' :: jstringifyArr (y :: r)

/-- Comma-separated serialization of object members. -/
def jstringifyObj : List (List Char × Jay) → List Char
  | [] => []
  | [(k, v)] => jstrLit k ++ ':' :: jstringify v
  | (k, v) :: p :: r => jstrLit k ++ ':' :: jstringify v ++ ',' :: jstringifyObj (p :: r)

end

/-- Scan a JSON string literal body after the opening quote, returning the
decoded characters and the remainder after the closing quote. -/
def jparseStr : Nat → List Char → Option (List Char × List Char)
  | 0, _ => none
  | _, [] => none
  | fu + 1, c :: r =>
      if c = '"' then some ([], r)
      else if c = '\\' then
        match r with
        | e :: r2 =>
            let dec : Option Char :=
              if e = '"' then some '"'
              else if e = '\\' then some '\\'
              else if e = '/' then some '/'
              else if e = 'n' then some '\n'
              else if e = 't' then some '\t'
              else if e = 'r' then some '\r'
              else if e = 'b' then some (Char.ofNat 8)
              else if e = 'f' then some (Char.ofNat 12)
              else none
            match dec with
            | some d =>
                match jparseStr fu r2 with
                | some (s, rest) => some (d :: s, rest)
                | none => none
            | none => none
        | [] => none
      else
        match jparseStr fu r with
        | some (s, rest) => some (c :: s, rest)
        | none => none

/-- Parse an unsigned JSON integer (no leading zeros except `0` itself),
rejecting fraction and exponent parts. -/
def jparseNat (s : List Char) : Option (Nat × List Char) :=
  let digits := s.takeWhile isDigitB
  let rest := s.dropWhile isDigitB
  match digits with
  | [] => none
  | ['0'] =>
      match rest with
      | '.' :: _ => none
      | 'e' :: _ => none
      | 'E' :: _ => none
      | _ => some (0, rest)
  | '0' :: _ => none
  | _ =>
      match rest with
      | '.' :: _ => none
      | 'e' :: _ => none
      | 'E' :: _ => none
      | _ => some (digits.foldl (fun a c => a * 10 + (c.toNat - '0'.toNat)) 0, rest)

/-- Parser work items: a whole value, the tail of an array after its first
element, or the tail of an object after its first member. -/
inductive PTask where
  | value : PTask
  | arrTail : List Jay → PTask
  | objTail : List (List Char × Jay) → PTask

/-- Fueled recursive-descent JSON parser (integer fragment). -/
def jparseGo : Nat → PTask → List Char → Option (Jay × List Char)
  | 0, _, _ => none
  | fu + 1, .value, s0 =>
      match s0.dropWhile jsonWs with
      | [] => none
      | c :: r =>
          if c = '{' then
            match r.dropWhile jsonWs with
            | '}' :: r2 => some (.jobj [], r2)
            | '"' :: r2 =>
                match jparseStr (r2.length + 1) r2 with
                | some (k, r3) =>
                    match r3.dropWhile jsonWs with
                    | ':' :: r4 =>
                        match jparseGo fu .value r4 with
                        | some (v, r5) => jparseGo fu (.objTail [(k, v)]) r5
                        | none => none
                    | _ => none
                | none => none
            | _ => none
          else if c = '[' then
            match r.dropWhile jsonWs with
            | ']' :: r2 => some (.jarr [], r2)
            | _ =>
                match jparseGo fu .value r with
                | some (v, r2) => jparseGo fu (.arrTail [v]) r2
                | none => none
          else if c = '"' then
            match jparseStr (r.length + 1) r with
            | some (s, rest) => some (.jstr s, rest)
            | none => none
          else if c = 't' then
            match r with
            | 'r' :: 'u' :: 'e' :: r2 => some (.jbool true, r2)
            | _ => none
          else if c = 'f' then
            match r with
            | 'a' :: 'l' :: 's' :: 'e' :: r2 => some (.jbool false, r2)
            | _ => none
          else if c = 'n' then
            match r with
            | 'u' :: 'l' :: 'l' :: r2 => some (.jnull, r2)
            | _ => none
          else if c = '-' then
            match jparseNat r with
            | some (n, rest) => some (.jnum (-(n : Int)), rest)
            | none => none
          else
            match jparseNat (c :: r) with
            | some (n, rest) => some (.jnum (n : Int), rest)
            | none => none
  | fu + 1, .arrTail acc, s0 =>
      match s0.dropWhile jsonWs with
      | ']' :: r => some (.jarr acc, r)
      | ',' :: r =>
          match jparseGo fu .value r with
          | some (v, r2) => jparseGo fu (.arrTail (acc ++ [v])) r2
          | none => none
      | _ => none
  | fu + 1, .objTail acc, s0 =>
      match s0.dropWhile jsonWs with
      | '}' :: r => some (.jobj acc, r)
      | ',' :: r =>
          match r.dropWhile jsonWs with
          | '"' :: r2 =>
              match jparseStr (r2.length + 1) r2 with
              | some (k, r3) =>
                  match r3.dropWhile jsonWs with
                  | ':' :: r4 =>
                      match jparseGo fu .value r4 with
                      | some (v, r5) => jparseGo fu (.objTail (acc ++ [(k, v)])) r5
                      | none => none
                  | _ => none
              | none => none
          | _ => none
      | _ => none

/-- `JSON.parse` on a whole text: parse one value and require only
whitespace to remain. -/
def jparse (s : List Char) : Option Jay :=
  match jparseGo (2 * s.length + 4) .value s with
  | some (v, rest) => if rest.dropWhile jsonWs = [] then some v else none
  | none => none

/-!
## Fixed-column markers and JS string primitives with `Int` indices
-/

/-- JS `s.substr(start, len)` with JS number arguments: a negative start
counts from the end of the string (clamped at 0) and a non-positive length
yields the empty string. -/
def jsSubstrI (s : List Char) (start len : Int) : List Char :=
  let b : Nat := if start < 0 then ((s.length : Int) + start).toNat else start.toNat
  if len ≤ 0 then [] else (s.drop b).take len.toNat

/-- The literal `HTML('` marker. -/
def htmlParen : List Char := "HTML(".toList ++ [squote]

/-- The literal `HTML('{` marker opening an embedded JSON payload. -/
def htmlParenBrace : List Char := htmlParen ++ ['{']

/-- The literal `HTML('QPUI` marker opening a control section. -/
def htmlQpui : List Char := htmlParen ++ "QPUI".toList

/-- The closing marker: a single quote followed by a right parenthesis. -/
def closeMark : List Char := [squote, ')']

/-- The `}')` text searched for when locating the end of a payload region. -/
def closeBraceMark : List Char := '}' :: closeMark

/-- The record-format header marker `A` + ten blanks + `R` (columns 6–17). -/
def rcdFmtOpenMark : List Char := 'A' :: blanks 10 ++ ['R']

/-!
## The Tag Scanner (`getFormatsFromSrc` in ddsToJson.js, lines 27–83)

The scanner is a fold over the document lines.  Its state is the
`isHtmlJsonTag` accumulation flag, the accumulation buffer `htmlTag`, and
the formats collected so far.  `addToFormats` un-escapes doubled quotes and
parses; in accumulation mode a parse failure is caught and treated as
still-incomplete data, but on a single-line tag (taken while NOT in
accumulation mode) the parse failure propagates and rejects the whole scan.
-/

/-- Scanner state: accumulation flag, buffer, and collected formats. -/
structure ScanSt where
  isHtmlJsonTag : Bool
  htmlTag : List Char
  formats : List Jay

/-- One `forEach` iteration of `getFormatsFromSrc`. -/
def scanStep (st : ScanSt) (line : List Char) : Except JsErr ScanSt :=
  -- the second half of the loop body (reached unless the first half returns)
  let part2 : ScanSt → Except JsErr ScanSt := fun st1 =>
    if jsSubstrN line 44 7 = htmlParenBrace then
      if jsSubstrN line 79 1 ≠ ['-'] then
        let str := st1.htmlTag ++ jsSubstring line 50 (jsLastIndexOf line closeMark)
        match jparse (unescapeQuotes str) with
        | some j => .ok ⟨false, st1.htmlTag, st1.formats ++ [j]⟩
        | none => .error (.syntaxErrorJson (unescapeQuotes str))
      else .ok ⟨true, st1.htmlTag ++ jsSubstring line 50 79, st1.formats⟩
    else .ok ⟨false, st1.htmlTag, st1.formats⟩
  if st.isHtmlJsonTag then
    let strPos : Int := if jsSubstrN line 44 6 = htmlParen then 50 else 44
    if jsSubstrN line 79 1 ≠ ['-'] then
      let str := st.htmlTag ++ jsSubstring line strPos (jsLastIndexOf line closeMark)
      match jparse (unescapeQuotes str) with
      | some j => part2 ⟨false, [], st.formats ++ [j]⟩
      | none =>
          .ok ⟨st.isHtmlJsonTag,
            st.htmlTag ++ jsSubstring line strPos (jsLastIndexOf line closeMark),
            st.formats⟩
    else .ok ⟨st.isHtmlJsonTag, st.htmlTag ++ jsSubstring line strPos 79, st.formats⟩
  else part2 st

/-- The initial scanner state. -/
def scanInit : ScanSt := ⟨false, [], []⟩

/-- The scanner fold over a whole document. -/
def scanDoc (lines : List (List Char)) : Except JsErr ScanSt :=
  lines.foldlM scanStep scanInit

/-- `getFormatsFromSrc(srcLines)`: the ordered list of parsed payloads, or a
rejection when a single-line tag fails to parse. -/
def getFormatsFromSrc (lines : List (List Char)) : Except JsErr (List Jay) :=
  (scanDoc lines).map (·.formats)

/-!
## The Renderer (`htmlObjToDdsLines` in jsonToDds.js, lines 161–198)
-/

/-- The 44-blank keyword-open prefix (blanks with `A` in column 6). -/
def kwdOpen : List Char := blanks 5 ++ 'A' :: blanks 38

/-- The first-line prefix: 38 columns, the display-line-number tag, then
the text `  2HTML('`. -/
def mkHtmlOpen (htmlLineNum : List Char) : List Char :=
  blanks 5 ++ 'A' :: blanks 32 ++ htmlLineNum ++ ' ' :: ' ' :: '2' :: htmlParen

/-- The inner continuation-line loop for one chunk: starting at `pos`, each
line carries `kwdOpen` plus up to 35 characters; a full 79-character line is
flagged with the continuation `-`, a shorter one is closed with the closing
marker and sets the `isHtmlClosed` flag.  Fueled; the fuel supplied by
`renderChunk` always suffices. -/
def innerLines : Nat → List Char → Int → (List (List Char) × Bool)
  | 0, _, _ => ([], false)
  | fu + 1, chunk, pos =>
      if pos < (chunk.length : Int) then
        let ddsLine := kwdOpen ++ jsSubstrI chunk pos (79 - (kwdOpen.length : Int))
        if ddsLine.length = 79 then
          let r := innerLines fu chunk (pos + (79 - (kwdOpen.length : Int)))
          ((ddsLine ++ ['-']) :: r.1, r.2)
        else
          let r := innerLines fu chunk (pos + (79 - (kwdOpen.length : Int)))
          ((ddsLine ++ closeMark) :: r.1, true)
      else ([], false)

/-- The lines emitted for one chunk that did NOT fit on its first line:
the continuation lines, plus the explicit blank-prefix closing line when no
inner line was closed. -/
def chunkTail (htmlOpen chunk : List Char) : List (List Char) :=
  let r := innerLines (chunk.length + htmlOpen.length + 2) chunk
    (79 - (htmlOpen.length : Int))
  r.1 ++ (if r.2 then [] else [kwdOpen ++ closeMark])

/-- The chunk loop of `htmlObjToDdsLines`: each chunk opens with the
`htmlOpen` prefix; a chunk whose text fits with two columns to spare is
closed immediately and BREAKS out of the loop (dropping any further
chunks); otherwise the first line is flagged continuing and the chunk tail
follows. -/
def renderChunks (htmlOpen : List Char) : List (List Char) → List (List Char)
  | [] => []
  | chunk :: rest =>
      if ((jsSubstrI chunk 0 (79 - (htmlOpen.length : Int))).length : Int)
          ≤ 79 - (htmlOpen.length : Int) - 2 then
        [htmlOpen ++ jsSubstrI chunk 0 (79 - (htmlOpen.length : Int)) ++ closeMark]
      else
        (htmlOpen ++ jsSubstrI chunk 0 (79 - (htmlOpen.length : Int)) ++ ['-']) ::
          (chunkTail htmlOpen chunk ++ renderChunks htmlOpen rest)

/-- `htmlObjToDdsLines(htmlObj, htmlLineNum)` on a defined object:
stringify, double the quotes, chunk to 2500, and lay out the lines. -/
def htmlObjToDdsLinesJ (htmlObj : Jay) (htmlLineNum : List Char) : List (List Char) :=
  renderChunks (mkHtmlOpen htmlLineNum)
    (chunkData (escapeQuotes (jstringify htmlObj)) 2500)

/-- `htmlObjToDdsLines` as called with a possibly-undefined format object
(`formatObj[0]`): `JSON.stringify(undefined)` yields `undefined`, and
`undefined.replace` throws a `TypeError` (reading `replace`). -/
def htmlObjToDdsLines (htmlObj : Option Jay) (htmlLineNum : List Char) :
    Except JsErr (List (List Char)) :=
  match htmlObj with
  | none => .error (.typeErrorRead "replace".toList)
  | some j => .ok (htmlObjToDdsLinesJ j htmlLineNum)

/-!
## The Structural Merge Engine (`conversionV1` in jsonToDds.js, lines 220–268)
-/

/-- `x.screen["record format name"].toUpperCase()` on one format object of
the new model: any access on `undefined`/`null` or a call on a non-string
throws. -/
def screenNameUpper (x : Jay) : Except JsErr (List Char) :=
  match jAccess x "screen".toList with
  | .error e => .error e
  | .ok none => .error (.typeErrorRead "record format name".toList)
  | .ok (some scr) =>
      match jAccess scr "record format name".toList with
      | .error e => .error e
      | .ok none => .error (.typeErrorRead "toUpperCase".toList)
      | .ok (some (.jstr s)) => .ok (jsToUpper s)
      | .ok (some _) => .error (.typeErrorNotFunction "toUpperCase".toList)

/-- `newJsonSrcObj.formats`, followed by the `.filter` call: a missing or
non-array `formats` makes `.filter` fail. -/
def modelFormats (model : Jay) : Except JsErr (List Jay) :=
  match jAccess model "formats".toList with
  | .error e => .error e
  | .ok (some (.jarr l)) => .ok l
  | .ok none => .error (.typeErrorRead "filter".toList)
  | .ok (some _) => .error (.typeErrorNotFunction "filter".toList)

/-- `formats.filter(x => screenNameUpper(x) === rcdFmt)`; the predicate is
evaluated left to right and its exceptions propagate.  A still-undefined
`rcdFmt` compares unequal to every string. -/
def filterFormats (formats : List Jay) (rcdFmt : Option (List Char)) :
    Except JsErr (List Jay) :=
  match formats with
  | [] => .ok []
  | x :: r =>
      match screenNameUpper x with
      | .error e => .error e
      | .ok nm =>
          match filterFormats r rcdFmt with
          | .error e => .error e
          | .ok rest => .ok (if some nm = rcdFmt then x :: rest else rest)

/-- Look up the new payload for the current record format and render it:
`formatObj[0]` is `undefined` when the filter found nothing, and the
renderer then throws. -/
def renderRegion (model : Jay) (origSrcLine : List Char)
    (rcdFmt : Option (List Char)) : Except JsErr (List (List Char)) :=
  match modelFormats model with
  | .error e => .error e
  | .ok fmts =>
      match filterFormats fmts rcdFmt with
      | .error e => .error e
      | .ok formatObj => htmlObjToDdsLines formatObj.head? (jsSubstrN origSrcLine 38 3)

/-- Position of the `conversionV1` scan: either in the outer copy loop at
line `i`, or inside the inner region scan that started at the
payload-tag-open line `iOpen` and is now examining line `j`. -/
inductive ConvPos where
  | outer : Nat → ConvPos
  | inner : Nat → Nat → ConvPos

/-- The fused outer/inner loop of `conversionV1`, fueled (both loops advance
an index on every step, so fuel `2*length+4` always suffices). -/
def conv1Go (model : Jay) (src : List (List Char)) :
    Nat → ConvPos → Option (List Char) → List (List Char) →
    Except JsErr (List (List Char))
  | 0, _, _, acc => .ok acc
  | fu + 1, .outer i, rcdFmt, acc =>
      match src[i]? with
      | none => .ok acc
      | some line =>
          if jsSubstrN line 5 12 = rcdFmtOpenMark then
            conv1Go model src fu (.outer (i + 1))
              (some (jsToUpper (jsTrimRight (jsSubstrN line 18 10)))) (acc ++ [line])
          else if jsSubstrN line 5 2 = ['A', ' '] ∧
              jsSubstrN line 44 7 = htmlParenBrace then
            conv1Go model src fu (.inner i i) rcdFmt acc
          else
            conv1Go model src fu (.outer (i + 1)) rcdFmt (acc ++ [line])
  | fu + 1, .inner iOpen j, rcdFmt, acc =>
      match src[j]? with
      | none => .ok acc
      | some lj =>
          if jsSubstrN lj 5 2 = ['A', ' '] ∧ jsSubstrN lj 79 1 ≠ ['-'] then
            if j = src.length - 1 then
              match renderRegion model (src[iOpen]?.getD []) rcdFmt with
              | .error e => .error e
              | .ok rendered =>
                  conv1Go model src fu (.outer (j + 1)) rcdFmt (acc ++ rendered)
            else
              if jsSubstrN ((src[j + 1]?).getD []) 44 6 ≠ htmlParen then
                match j with
                | 0 => .error (.typeErrorRead "substring".toList)
                | jp + 1 =>
                    let tempText := jsSubstring ((src[jp]?).getD []) 44 79 ++
                      jsSubstring lj 44 80
                    if jsLastIndexOf tempText closeBraceMark ≠ -1 then
                      match renderRegion model (src[iOpen]?.getD []) rcdFmt with
                      | .error e => .error e
                      | .ok rendered =>
                          conv1Go model src fu (.outer (j + 1)) rcdFmt (acc ++ rendered)
                    else conv1Go model src fu (.inner iOpen (j + 1)) rcdFmt acc
              else conv1Go model src fu (.inner iOpen (j + 1)) rcdFmt acc
          else conv1Go model src fu (.inner iOpen (j + 1)) rcdFmt acc

/-- `conversionV1(newJsonSrcObj, origSrcLines)`. -/
def conversionV1 (model : Jay) (origSrcLines : List (List Char)) :
    Except JsErr (List (List Char)) :=
  conv1Go model origSrcLines (2 * origSrcLines.length + 4) (.outer 0) none []

/-- The structured model object handed to the merge engine: an object whose
`formats` member is the array of payloads (as produced by ddsToJson). -/
def mkModel (formats : List Jay) : Jay :=
  .jobj [("formats".toList, .jarr formats)]

deriving instance DecidableEq for Except

/-!
## The Raw-Text Assembler (`getDdsFromSrc` and `getBoundFields` in
ddsToJson.js, lines 212–291)
-/

/-- The own enumerable property values of a JS value, as `for...in` plus
`item[itemProperty]` enumerates them: member values of an object, elements
of an array, one-character strings for a string, nothing for primitives. -/
def ownValues : Jay → List Jay
  | .jobj kvs => kvs.map Prod.snd
  | .jarr l => l
  | .jstr s => s.map (fun c => Jay.jstr [c])
  | _ => []

/-- The body of the `getBoundFields` inner loop for one property value:
`if (typeof itemValue === "object" && itemValue.fieldName)
   fields.push(itemValue.fieldName.toUpperCase())`.
`typeof null` is `"object"`, so a null value throws on the `.fieldName`
access; a truthy non-string `fieldName` throws on `.toUpperCase()`. -/
def fieldNameTail (fv : Jay) : Except JsErr (List (List Char)) :=
  if jTruthy fv then
    match fv with
    | .jstr s => .ok [jsToUpper s]
    | _ => .error (.typeErrorNotFunction "toUpperCase".toList)
  else .ok []

/-- The `fieldName` test and collection for one property value. -/
def fieldNameOf (v : Jay) : Except JsErr (List (List Char)) :=
  if typeofObject v then
    match jAccess v "fieldName".toList with
    | .error e => .error e
    | .ok none => .ok []
    | .ok (some fv) => fieldNameTail fv
  else .ok []

/-- Collect the `fieldName` contributions of a list of property values. -/
def collectVals : List Jay → Except JsErr (List (List Char))
  | [] => .ok []
  | v :: r =>
      match fieldNameOf v with
      | .error e => .error e
      | .ok a =>
          match collectVals r with
          | .error e => .error e
          | .ok b => .ok (a ++ b)

/-- Collect the bound fields over the items of a payload. -/
def collectItems : List Jay → Except JsErr (List (List Char))
  | [] => .ok []
  | it :: r =>
      match collectVals (ownValues it) with
      | .error e => .error e
      | .ok a =>
          match collectItems r with
          | .error e => .error e
          | .ok b => .ok (a ++ b)

/-- `getBoundFields(rcdFmt)`: iterate `rcdFmt.items` with `for...of`
(arrays iterate their elements, strings their characters; anything else
throws), collecting upper-cased `fieldName` properties of object-valued
DIRECT properties of each item — the walk does not recurse deeper. -/
def getBoundFields (rcdFmt : Jay) : Except JsErr (List (List Char)) :=
  match jAccess rcdFmt "items".toList with
  | .error e => .error e
  | .ok none => .error .typeErrorNotIterable
  | .ok (some (.jarr l)) => collectItems l
  | .ok (some (.jstr s)) => collectItems (s.map (fun c => Jay.jstr [c]))
  | .ok (some _) => .error .typeErrorNotIterable

mutual

/-- Modelled from the claim text: the set of upper-cased field names
reachable by recursively walking the ENTIRE payload tree and collecting
every `fieldName` leaf at any nesting depth. -/
def specBoundFields : Jay → List (List Char)
  | .jobj kvs => specBoundFieldsObj kvs
  | .jarr l => specBoundFieldsArr l
  | _ => []

/-- Recursive walk over array elements. -/
def specBoundFieldsArr : List Jay → List (List Char)
  | [] => []
  | x :: r => specBoundFields x ++ specBoundFieldsArr r

/-- Recursive walk over object members, collecting string-valued
`fieldName` members. -/
def specBoundFieldsObj : List (List Char × Jay) → List (List Char)
  | [] => []
  | (k, v) :: r =>
      (if k = "fieldName".toList then
        (match v with
          | .jstr s => [jsToUpper s]
          | _ => []) ++ specBoundFields v
       else specBoundFields v) ++ specBoundFieldsObj r

end

/-- The control-character replacement of the echo:
`replace(/[\x00-\x09\x0B-\x1F\x7F-\x9F]/g, " ")` applied per character. -/
def replCtrl (c : Char) : Char :=
  if c.toNat ≤ 9 || (11 ≤ c.toNat && c.toNat ≤ 31) ||
      (127 ≤ c.toNat && c.toNat ≤ 159) then ' ' else c

/-- One echoed line: control characters blanked, then right-trimmed. -/
def cleanLine (l : List Char) : List Char :=
  jsTrimRight (l.map replCtrl)

/-- Scan state of `getDdsFromSrc`: the SFL flag, current record-format
name, its filtered payload list, the bound-field set (null until a payload
region has been processed), and the echoed lines so far. -/
structure DdsSt where
  isSFL : Bool
  rcdFmt : Option (List Char)
  rcdFmtObj : Option (List Jay)
  boundFields : Option (List (List Char))
  acc : List (List Char)

/-- Position of the `getDdsFromSrc` scan: the outer loop, the
control-section (`QPUI`) skip loop, or the payload-region scan. -/
inductive DdsPos where
  | douter : Nat → DdsPos
  | dqpui : Nat → DdsPos
  | dregion : Nat → DdsPos

/-- The fused loops of `getDdsFromSrc`, fueled. -/
def getDdsGo (formats : List Jay) (src : List (List Char)) :
    Nat → DdsPos → DdsSt → Except JsErr (List (List Char))
  | 0, _, st => .ok st.acc
  | fu + 1, .douter i, st =>
      match src[i]? with
      | none => .ok st.acc
      | some line =>
          let afterHdr : Except JsErr DdsSt :=
            if jsSubstrN line 5 12 = rcdFmtOpenMark then
              match filterFormats formats
                  (some (jsTrimRight (jsSubstrN line 18 10))) with
              | .error e => .error e
              | .ok fl =>
                  .ok ⟨jsTrim (jsSubstrN line 44 36) = "SFL".toList,
                    some (jsTrimRight (jsSubstrN line 18 10)), some fl, none, st.acc⟩
            else .ok st
          match afterHdr with
          | .error e => .error e
          | .ok st1 =>
              if jsSubstrN line 5 2 = ['A', ' '] ∧ jsSubstrN line 44 10 = htmlQpui then
                getDdsGo formats src fu (.dqpui i) st1
              else if ¬st1.isSFL = true ∧ jsSubstrN line 5 2 = ['A', ' '] ∧
                  jsSubstrN line 44 7 = htmlParenBrace then
                getDdsGo formats src fu (.dregion i) st1
              else
                if line ≠ [] ∧ jsSubstrN line 5 4 ≠ "A*%%".toList then
                  if st1.boundFields.isSome = true ∧ jsSubstrN line 5 2 = ['A', ' '] ∧
                      jsSubstrN line 37 1 = ['H'] ∧
                      (jsTrimRight (jsSubstrN line 18 10)) ∈ st1.boundFields.getD [] then
                    getDdsGo formats src fu (.douter (i + 1)) st1
                  else
                    getDdsGo formats src fu (.douter (i + 1))
                      ⟨st1.isSFL, st1.rcdFmt, st1.rcdFmtObj, st1.boundFields,
                        st1.acc ++ [cleanLine line]⟩
                else getDdsGo formats src fu (.douter (i + 1)) st1
  | fu + 1, .dqpui i, st =>
      match src[i]? with
      | none => .error (.typeErrorRead "substr".toList)
      | some l =>
          if jsSubstrN l 79 1 = ['-'] then getDdsGo formats src fu (.dqpui (i + 1)) st
          else getDdsGo formats src fu (.douter (i + 1)) st
  | fu + 1, .dregion j, st =>
      match src[j]? with
      | none => .ok st.acc
      | some lj =>
          if jsSubstrN lj 5 2 = ['A', ' '] ∧ jsSubstrN lj 79 1 ≠ ['-'] then
            match src[j + 1]? with
            | none => .error (.typeErrorRead "substr".toList)
            | some lnext =>
                if jsSubstrN lnext 44 6 ≠ htmlParen then
                  match j with
                  | 0 => .error (.typeErrorRead "substring".toList)
                  | jp + 1 =>
                      if jsLastIndexOf (jsSubstring ((src[jp]?).getD []) 44 79 ++
                          jsSubstring lj 44 80) closeBraceMark ≠ -1 then
                        match st.rcdFmtObj with
                        | none => .error (.typeErrorRead "0".toList)
                        | some fl =>
                            match fl.head? with
                            | none => .error (.typeErrorRead "items".toList)
                            | some fmt =>
                                match getBoundFields fmt with
                                | .error e => .error e
                                | .ok bf =>
                                    getDdsGo formats src fu (.douter (j + 1))
                                      ⟨st.isSFL, st.rcdFmt, st.rcdFmtObj, some bf, st.acc⟩
                      else getDdsGo formats src fu (.dregion (j + 1)) st
                else getDdsGo formats src fu (.dregion (j + 1)) st
          else getDdsGo formats src fu (.dregion (j + 1)) st

/-- `getDdsFromSrc(srcLines)`: extract the formats, then produce the
cleaned verbatim echo. -/
def getDdsFromSrc (src : List (List Char)) : Except JsErr (List (List Char)) :=
  match getFormatsFromSrc src with
  | .error e => .error e
  | .ok formats =>
      getDdsGo formats src (2 * src.length + 4) (.douter 0)
        ⟨false, none, none, none, []⟩

/-!
## Concrete documents used in the theorems below
-/

/-- A minimal well-formed payload for record format `FMT1`. -/
def P0 : Jay :=
  .jobj [("screen".toList, .jobj [("record format name".toList, .jstr "FMT1".toList)]),
         ("items".toList, .jarr [])]

/-- The serialized text of `P0`. -/
def jsonText : List Char := jstringify P0

/-- The constant 18-column prefix of a record-format header line
(blanks, `A` in column 6, `R` in column 17). -/
def hdrPre : List Char := blanks 5 ++ 'A' :: blanks 10 ++ 'R' :: [' ']

/-- A record-format header line carrying `name` in the name columns 19–28. -/
def mkHeader (name : List Char) : List Char := hdrPre ++ name

/-- Header line for record format `FMT1`. -/
def hdr : List Char := mkHeader ("FMT1".toList ++ blanks 6)

/-- Header line for record format `ZZZ9`. -/
def hdrB : List Char := mkHeader ("ZZZ9".toList ++ blanks 6)

/-- The canonical document: the header followed by the renderer output for
`P0` (blank display-line-number tag). -/
def D0 : List (List Char) := hdr :: htmlObjToDdsLinesJ P0 (blanks 3)

/-- A single-line payload tag carrying `jsonText` (the whole tag on one
physical line; column 80 is not a continuation flag). -/
def longLine : List Char := kwdOpen ++ htmlParen ++ jsonText ++ closeMark

/-- A non-canonical document: the same payload as `D0`, laid out as one
long tag line instead of the renderer layout. -/
def D1 : List (List Char) := [hdr, longLine]

/-- A payload tag line whose closing marker is preceded by two blanks, so
the `}')` text never appears in the merge engine's end-of-region window. -/
def tagLine7 : List Char := kwdOpen ++ htmlParen ++ jsonText ++ [' ', ' '] ++ closeMark

/-- Document for the C7 counterexample: header, payload tag, blank line. -/
def D7 : List (List Char) := [hdr, tagLine7, []]

/-- A single-line payload tag with a small valid JSON object. -/
def tagA : List Char := kwdOpen ++ htmlParenBrace ++ "\"a\":1\x7d".toList ++ closeMark

/-- A single-line payload tag whose text is not valid JSON. -/
def badLine : List Char := kwdOpen ++ htmlParenBrace ++ "oops".toList ++ closeMark

/-- A payload-tag-open line flagged continuing in column 80 (an opened,
never-completed accumulation). -/
def tagOpenCont : List Char := kwdOpen ++ htmlParen ++ '{' :: blanks 28 ++ ['-']

/-- A bare continuation line: blank keyword prefix, blank content, flagged
continuing in column 80. -/
def contLine : List Char := kwdOpen ++ blanks 35 ++ ['-']

/-- A region-closing line: blank keyword prefix followed by the `}')`
text, not continuing in column 80. -/
def endTag : List Char := kwdOpen ++ closeBraceMark

/-- A payload whose serialization has exactly 28 characters — one short of
the 29 columns available on a first rendered line. -/
def P10 : Jay := .jobj [(['a'], .jstr "01234567890123456789".toList)]

/-- The shape every rendered line has: at most 80 characters, and either
closed with the closing marker or ending in a continuation dash on a line
of exactly 80 or exactly 79 characters. -/
def LineShape (l : List Char) : Prop :=
  l.length ≤ 80 ∧
    (closeMark <:+ l ∨ (l.getLast? = some '-' ∧ (l.length = 80 ∨ l.length = 79)))

/-- A payload whose only `fieldName` sits three objects deep: inside the
first item's property `a`, inside that object's property `b`. -/
def fmtC : Jay :=
  .jobj [("items".toList,
    .jarr [.jobj [("a".toList,
      .jobj [("b".toList,
        .jobj [("fieldName".toList, .jstr "F1".toList)])])]])]

/-- A payload for record format `F1` binding the single field `FLD1`. -/
def P8 : Jay :=
  .jobj [("screen".toList, .jobj [("record format name".toList, .jstr "F1".toList)]),
         ("items".toList,
           .jarr [.jobj [("a".toList,
             .jobj [("fieldName".toList, .jstr "FLD1".toList)])]])]

/-- The serialized text of `P8` (75 characters). -/
def json8 : List Char := jstringify P8

/-- Header line for record format `F1`. -/
def hdr8 : List Char := mkHeader ("F1".toList ++ blanks 8)

/-- First payload line of the `P8` region: tag open, 29 payload characters,
continuation dash in column 80. -/
def t81 : List Char := kwdOpen ++ htmlParen ++ json8.take 29 ++ ['-']

/-- Middle payload line: 35 payload characters, continuation dash. -/
def t82 : List Char := kwdOpen ++ (json8.drop 29).take 35 ++ ['-']

/-- Closing payload line: the last 11 payload characters and the closing
marker; column 80 is not a continuation flag. -/
def t83 : List Char := kwdOpen ++ json8.drop 64 ++ closeMark

/-- A hidden field-definition line (`H` in column 38) carrying `name` in
the name columns 19–28. -/
def mkFieldLine (name : List Char) : List Char :=
  blanks 5 ++ 'A' :: ' ' :: blanks 11 ++ name ++ blanks (19 - name.length) ++ ['H']

/-- Document with a `P8` region followed by a hidden definition of the
bound field `FLD1`. -/
def doc8a : List (List Char) := [hdr8, t81, t82, t83, mkFieldLine "FLD1".toList]

/-- The same document, but the hidden field `FLD2` is not bound by `P8`. -/
def doc8b : List (List Char) := [hdr8, t81, t82, t83, mkFieldLine "FLD2".toList]


/-!
# Theorems
-/

/-! ### Lemmas about the Chunker -/

theorem backoff_le (data : List Char) : ∀ k, backoff data k ≤ k := by
  intro k
  induction k with
  | zero => simp [backoff]
  | succ n ih =>
      simp only [backoff]
      split
      · exact Nat.le_succ_of_le ih
      · exact Nat.le_refl _

theorem chunkSize_le (data : List Char) (bytes : Nat) :
    chunkSize data bytes ≤ bytes := by
  unfold chunkSize
  split
  · exact Nat.le_refl _
  · exact backoff_le data bytes

theorem chunkSize_pos (data : List Char) {bytes : Nat} (hb : 0 < bytes) :
    0 < chunkSize data bytes := by
  unfold chunkSize
  split
  · exact hb
  · omega

theorem takeWhile_eq_nil_of_no_quote {l : List Char}
    (h : ∀ c ∈ l, c ≠ squote) : l.takeWhile (· = squote) = [] := by
  cases l with
  | nil => rfl
  | cons c t =>
      have : c ≠ squote := h c (List.mem_cons_self c t)
      simp [List.takeWhile, this]

theorem dropWhile_eq_self_of_no_quote {l : List Char}
    (h : ∀ c ∈ l, c ≠ squote) : l.dropWhile (· = squote) = l := by
  cases l with
  | nil => rfl
  | cons c t =>
      have : c ≠ squote := h c (List.mem_cons_self c t)
      simp [List.dropWhile, this]

theorem fixSingleQuotes_of_no_quote {l : List Char} (acc : List (List Char))
    (h : ∀ c ∈ l, c ≠ squote) : fixSingleQuotes (l :: acc) = l :: acc := by
  cases acc with
  | nil => rfl
  | cons p r =>
      simp [fixSingleQuotes, takeWhile_eq_nil_of_no_quote h,
        dropWhile_eq_self_of_no_quote h]

theorem mem_chunkFinal_of_no_quote {data : List Char} {acc : List (List Char)}
    (hq : ∀ c ∈ data, c ≠ squote) {l : List Char}
    (hl : l ∈ chunkFinal data acc) : l = data ∨ l ∈ acc := by
  by_cases hd : 0 < data.length
  · rw [chunkFinal, if_pos hd, fixSingleQuotes_of_no_quote acc hq] at hl
    simpa using hl
  · rw [chunkFinal, if_neg hd] at hl
    exact Or.inr hl

theorem chunkLoop_length_le {bytes : Nat} (hb : 0 < bytes) :
    ∀ fuel data acc, data.length ≤ fuel + bytes →
      (∀ c ∈ data, c ≠ squote) →
      (∀ l ∈ acc, l.length ≤ bytes) →
      ∀ l ∈ chunkLoop bytes fuel data acc, l.length ≤ bytes := by
  intro fuel
  induction fuel with
  | zero =>
      intro data acc hlen hq hacc l hl
      rw [chunkLoop] at hl
      rcases mem_chunkFinal_of_no_quote hq hl with h | h
      · subst h; omega
      · exact hacc l h
  | succ n ih =>
      intro data acc hlen hq hacc l hl
      rw [chunkLoop] at hl
      by_cases hlt : bytes < data.length
      · rw [if_pos hlt, fixSingleQuotes_of_no_quote acc
            (fun c hc => hq c (List.take_subset _ _ hc))] at hl
        refine ih _ _ ?_ (fun c hc => hq c (List.drop_subset _ _ hc)) ?_ l hl
        · have h1 : 0 < chunkSize data bytes := chunkSize_pos data hb
          have h2 : (data.drop (chunkSize data bytes)).length
              = data.length - chunkSize data bytes := List.length_drop _ _
          omega
        · intro m hm
          rcases List.mem_cons.mp hm with hm | hm
          · subst hm
            have h3 : (data.take (chunkSize data bytes)).length
                = min (chunkSize data bytes) data.length := List.length_take _ _
            have h4 := chunkSize_le data bytes
            omega
          · exact hacc m hm
      · rw [if_neg hlt] at hl
        rcases mem_chunkFinal_of_no_quote hq hl with h | h
        · subst h; omega
        · exact hacc l h

theorem fixSingleQuotes_reverse_flatten (l : List (List Char)) :
    (fixSingleQuotes l).reverse.flatten = l.reverse.flatten := by
  match l with
  | [] => rfl
  | [a] => rfl
  | a :: b :: t =>
      simp [fixSingleQuotes, List.reverse_cons, List.flatten_append,
        List.append_assoc, List.takeWhile_append_dropWhile]

theorem chunkFinal_reverse_flatten (data : List Char) (acc : List (List Char)) :
    (chunkFinal data acc).reverse.flatten = acc.reverse.flatten ++ data := by
  by_cases hd : 0 < data.length
  · rw [chunkFinal, if_pos hd, fixSingleQuotes_reverse_flatten]
    simp [List.reverse_cons, List.flatten_append]
  · have : data = [] := by
      cases data with
      | nil => rfl
      | cons c t => simp at hd
    rw [chunkFinal, if_neg hd, this]
    simp

theorem chunkLoop_reverse_flatten (bytes : Nat) :
    ∀ fuel data acc,
      (chunkLoop bytes fuel data acc).reverse.flatten
        = acc.reverse.flatten ++ data := by
  intro fuel
  induction fuel with
  | zero =>
      intro data acc
      rw [chunkLoop, chunkFinal_reverse_flatten]
  | succ n ih =>
      intro data acc
      rw [chunkLoop]
      by_cases hlt : bytes < data.length
      · rw [if_pos hlt, ih, fixSingleQuotes_reverse_flatten]
        simp [List.reverse_cons, List.flatten_append, List.append_assoc,
          List.take_append_drop]
      · rw [if_neg hlt, chunkFinal_reverse_flatten]

theorem head?_dropWhile_ne_quote (l : List Char) :
    ∀ c, (l.dropWhile (· = squote)).head? = some c → c ≠ squote := by
  induction l with
  | nil => intro c h; simp [List.dropWhile] at h
  | cons a t ih =>
      intro c h
      by_cases ha : a = squote
      · rw [List.dropWhile_cons] at h
        simp only [ha, decide_True] at h
        exact ih c (by simpa [ha] using h)
      · rw [List.dropWhile_cons] at h
        simp only [decide_eq_true_eq, ha, if_false] at h
        simp only [List.head?_cons, Option.some.injEq] at h
        subst h; exact ha

theorem fixSingleQuotes_headNoQuote (d : List Char) (p : List Char)
    (r : List (List Char)) : HeadNoQuote (fixSingleQuotes (d :: p :: r)) := by
  intro c hc
  simp only [fixSingleQuotes, List.head?_cons, Option.some.injEq] at hc
  subst hc
  intro h
  have := head?_dropWhile_ne_quote d squote h
  exact this rfl

theorem chunkLoop_headNoQuote (bytes : Nat) :
    ∀ fuel data acc, (acc.length ≤ 1 ∨ HeadNoQuote acc) →
      ((chunkLoop bytes fuel data acc).length ≤ 1 ∨
        HeadNoQuote (chunkLoop bytes fuel data acc)) := by
  have hfinal : ∀ data acc, (acc.length ≤ 1 ∨ HeadNoQuote acc) →
      ((chunkFinal data acc).length ≤ 1 ∨ HeadNoQuote (chunkFinal data acc)) := by
    intro data acc hacc
    simp only [chunkFinal]
    split
    · cases acc with
      | nil => left; simp [fixSingleQuotes]
      | cons p r => right; exact fixSingleQuotes_headNoQuote data p r
    · exact hacc
  intro fuel
  induction fuel with
  | zero => intro data acc hacc; exact hfinal data acc hacc
  | succ n ih =>
      intro data acc hacc
      simp only [chunkLoop]
      split
      · refine ih _ _ ?_
        cases acc with
        | nil => left; simp [fixSingleQuotes]
        | cons p r => right; exact fixSingleQuotes_headNoQuote _ p r
      · exact hfinal data acc hacc

/-! ### Claims C5 and C6 -/

/-- C5, counterexample: with chunk size 1 (positive), `chunkData` on the
two-character input `x` followed by a single quote returns a first chunk of
length 2, exceeding the limit: the quote-repair step moves the leading quote
of the second chunk onto the first, pushing it past the size bound. -/
theorem chunkData_oversize_chunk :
    ['x', squote] ∈ chunkData ['x', squote] 1 ∧
      1 < (['x', squote] : List Char).length := by
  decide

/-- C5 (amended): for every input and positive chunk size, every chunk
returned by `chunkData` has length at most the chunk size, provided the
input contains no single-quote character (quote repair, the only source of
oversized chunks, is then inert). -/
theorem chunkData_chunk_length_le (data : List Char) (bytes : Nat)
    (hb : 0 < bytes) (hq : ∀ c ∈ data, c ≠ squote) :
    ∀ l ∈ chunkData data bytes, l.length ≤ bytes := by
  intro l hl
  rw [chunkData, List.mem_reverse] at hl
  exact chunkLoop_length_le hb data.length data [] (by omega) hq
    (by intro m hm; simp at hm) l hl

/-- Witness for C5 (amended) at the quote-free input `ab cd` with size 3. -/
theorem chunkData_chunk_length_le_witness :
    0 < 3 ∧ (∀ c ∈ ['a', 'b', ' ', 'c', 'd'], c ≠ squote) ∧
      ∀ l ∈ chunkData ['a', 'b', ' ', 'c', 'd'] 3, l.length ≤ 3 :=
  ⟨by decide, by decide, chunkData_chunk_length_le _ 3 (by decide) (by decide)⟩

/-- C6, counterexample: with chunk size 1, `chunkData` on the input `a`
followed by two single quotes returns a chunk after the first that begins
with a single quote (quote repair emptied the middle chunk, and a later
repair step refilled it with a quote). -/
theorem chunkData_quote_after_first :
    (chunkData ['a', squote, squote] 1)[1]? = some [squote] ∧
      ([squote] : List Char).head? = some squote := by
  decide

/-- C6 (amended): for every input and positive chunk size, re-joining the
chunks returned by `chunkData` reproduces the input exactly; and whenever at
least two chunks are returned, the LAST chunk does not begin with a single
quote (the repair guarantees this only for the most recently produced
chunk — an earlier non-first chunk can still begin with a quote). -/
theorem chunkData_flatten_and_last (data : List Char) (bytes : Nat)
    (hb : 0 < bytes) :
    (chunkData data bytes).flatten = data ∧
      (2 ≤ (chunkData data bytes).length →
        ∀ c, (chunkData data bytes).getLast? = some c →
          c.head? ≠ some squote) := by
  constructor
  · have h := chunkLoop_reverse_flatten bytes data.length data []
    simpa [chunkData] using h
  · intro h2 c hc hq
    rcases chunkLoop_headNoQuote bytes data.length data []
        (Or.inl (by simp)) with hlen | hQ
    · rw [chunkData, List.length_reverse] at h2; omega
    · rw [chunkData, List.getLast?_reverse] at hc
      exact hQ c hc hq

/-- Witness for C6 (amended) at input `ab` with chunk size 1. -/
theorem chunkData_flatten_and_last_witness :
    0 < 1 ∧ ((chunkData ['a', 'b'] 1).flatten = ['a', 'b'] ∧
      (2 ≤ (chunkData ['a', 'b'] 1).length →
        ∀ c, (chunkData ['a', 'b'] 1).getLast? = some c →
          c.head? ≠ some squote)) :=
  ⟨by decide, chunkData_flatten_and_last ['a', 'b'] 1 (by decide)⟩

/-- C2, counterexample: on a document whose first line has a non-numeric
prefix but whose second line has a numeric one, the converters strip the
second line anyway — detection is per-line, not document-wide as claimed. -/
theorem stripLines_not_document_wide :
    ddsToJsonStripLines [['A'], List.replicate 12 '0' ++ ['B']]
        = [['A'], ['B']] ∧
      specStripDocumentWide [['A'], List.replicate 12 '0' ++ ['B']]
        = [['A'], List.replicate 12 '0' ++ ['B']] := by
  decide

/-- C2 (amended): prefix stripping is per-line in both converters: the output
at position `i` is exactly the per-line strip of the input line at `i`
(each line is stripped exactly when its OWN 12-character prefix parses as a
number); both converters use the same rule, and when verifyConvert decides
(from the first line only) that a stripped copy is needed, that copy is the
same per-line strip. -/
theorem stripLines_per_line (lines : List (List Char)) (i : Nat) :
    (ddsToJsonStripLines lines)[i]? = (lines[i]?).map stripSeqLine ∧
      jsonToDdsStripLines lines = ddsToJsonStripLines lines ∧
      (isNaNParseInt (jsSubstrN (lines.headD []) 0 12) = false →
        verifyConvertSourceLines lines = ddsToJsonStripLines lines) := by
  refine ⟨List.getElem?_map stripSeqLine lines i, rfl, ?_⟩
  intro h
  rw [verifyConvertSourceLines, if_neg (by rw [h]; exact Bool.false_ne_true)]
  rfl

/-- Witness for C2 (amended) at a two-line document with a numeric prefix on
the first line. -/
theorem stripLines_per_line_witness :
    isNaNParseInt (jsSubstrN (([List.replicate 12 '0' ++ ['A'],
        ['B']] : List (List Char)).headD []) 0 12) = false ∧
      ((ddsToJsonStripLines [List.replicate 12 '0' ++ ['A'], ['B']])[0]?
          = (([List.replicate 12 '0' ++ ['A'], ['B']] :
              List (List Char))[0]?).map stripSeqLine ∧
        jsonToDdsStripLines [List.replicate 12 '0' ++ ['A'], ['B']]
          = ddsToJsonStripLines [List.replicate 12 '0' ++ ['A'], ['B']] ∧
        (isNaNParseInt (jsSubstrN (([List.replicate 12 '0' ++ ['A'],
            ['B']] : List (List Char)).headD []) 0 12) = false →
          verifyConvertSourceLines [List.replicate 12 '0' ++ ['A'], ['B']]
            = ddsToJsonStripLines [List.replicate 12 '0' ++ ['A'], ['B']])) :=
  ⟨by decide, stripLines_per_line [List.replicate 12 '0' ++ ['A'], ['B']] 0⟩

/-! ### Claim C1 -/

/-- C1, counterexample: parsing the document `D1` succeeds and yields the
model `[P0]`, but running the Structural Merge Engine on `D1` with exactly
that model does NOT reproduce `D1`: the payload region is re-laid-out in the
renderer's canonical continuation format, which differs from the original
single-line layout. -/
theorem conversionV1_not_idempotent :
    getFormatsFromSrc D1 = Except.ok [P0] ∧
      conversionV1 (mkModel [P0]) D1 ≠ Except.ok D1 := by
  constructor
  · rfl
  · decide

/-- C1 (amended): the merge reproduces the document byte-for-byte when its
payload regions already carry the renderer's canonical layout: for the
canonical document `D0` (header plus renderer output for its payload), the
Tag Scanner recovers exactly `[P0]` and the merge with that model returns
`D0` unchanged. -/
theorem conversionV1_idempotent_on_canonical :
    getFormatsFromSrc D0 = Except.ok [P0] ∧
      conversionV1 (mkModel [P0]) D0 = Except.ok D0 := by
  constructor
  · rfl
  · decide

/-! ### Claim C4, counterexample -/

/-- C4, counterexample: on two documents that differ only in the
record-format name of the header enclosing the payload region, a merge with
an empty model fails with the SAME error value — a `TypeError` about
reading `replace` on `undefined` — so the failure delivered to the caller
does not carry the offending record-format name (nor any label). -/
theorem merge_error_unlabeled :
    conversionV1 (mkModel []) [hdr, tagA]
        = Except.error (.typeErrorRead "replace".toList) ∧
      conversionV1 (mkModel []) [hdrB, tagA]
        = Except.error (.typeErrorRead "replace".toList) ∧
      hdr ≠ hdrB := by
  refine ⟨by decide, by decide, by decide⟩

/-! ### Claim C7, counterexample -/

/-- C7, counterexample: in `D7` the payload tag line closes (column 80 not
continuing) and is followed by a line that opens no payload tag, so by the
claim the region should end there and the following blank line should be
copied through.  Instead the merge returns only the header: the `}')` text
is missing from the end-of-region window (the closing marker is preceded by
blanks), the scan runs off the end of the document, and both the tag line
and the blank line are silently dropped without any rendering. -/
theorem merge_swallows_lines :
    conversionV1 (mkModel []) D7 = Except.ok [hdr] ∧
      ([] : List Char) ∈ D7 ∧ ([] : List Char) ∉ [hdr] := by
  refine ⟨by decide, by decide, by decide⟩

/-! ### Claim C3 -/

theorem scanStep_continuing {st : ScanSt} {L : List Char}
    (hacc : st.isHtmlJsonTag = true) (hcont : jsSubstrN L 79 1 = ['-']) :
    scanStep st L = .ok ⟨true, st.htmlTag ++ jsSubstring L
      (if jsSubstrN L 44 6 = htmlParen then 50 else 44) 79, st.formats⟩ := by
  rw [scanStep]
  simp only [hacc, if_true, hcont, ne_eq, not_true_eq_false, if_false]

theorem scanTail_continuing : ∀ (tail : List (List Char)) (st : ScanSt),
    st.isHtmlJsonTag = true → (∀ L ∈ tail, jsSubstrN L 79 1 = ['-']) →
    ∃ tag, tail.foldlM scanStep st = .ok ⟨true, tag, st.formats⟩ := by
  intro tail
  induction tail with
  | nil =>
      intro st hacc htail
      refine ⟨st.htmlTag, ?_⟩
      obtain ⟨f, t, fo⟩ := st
      simp only at hacc
      subst hacc
      rfl
  | cons L t ih =>
      intro st hacc htail
      rw [List.foldlM_cons, scanStep_continuing hacc (htail L (by simp))]
      obtain ⟨tag, htag⟩ := ih ⟨true, st.htmlTag ++ jsSubstring L
        (if jsSubstrN L 44 6 = htmlParen then 50 else 44) 79, st.formats⟩ rfl
        (fun M hM => htail M (by simp [hM]))
      exact ⟨tag, by simpa using htag⟩

/-- C3, counterexample: a payload region that opens and closes on a single
line and whose text (`{oops`) never parses is NOT dropped silently: the
whole scan is rejected with a `SyntaxError`, and the valid payload found
earlier in the document is lost with it. -/
theorem scanner_rejects_bad_single_line_tag :
    getFormatsFromSrc [tagA, badLine]
        = Except.error (.syntaxErrorJson "\x7boops".toList) ∧
      (getFormatsFromSrc [tagA]).map (·.map jstringify)
        = Except.ok ["\x7b\"a\":1\x7d".toList] := by
  constructor
  · rfl
  · rfl

/-- C3 (amended): a payload region that is still accumulating (opened with a
continuation flag) and never completes is dropped silently at end of
document: whatever payloads a document prefix has produced, appending the
unfinished region's continuation lines leaves the scan successful and its
result unchanged.  (Single-line tags that fail to parse are NOT covered:
they reject the whole scan, see the counterexample.) -/
theorem scanner_drops_unclosed_region (D tail : List (List Char)) (st : ScanSt)
    (hD : scanDoc D = Except.ok st) (hacc : st.isHtmlJsonTag = true)
    (htail : ∀ L ∈ tail, jsSubstrN L 79 1 = ['-']) :
    getFormatsFromSrc (D ++ tail) = Except.ok st.formats := by
  obtain ⟨tag, htag⟩ := scanTail_continuing tail st hacc htail
  rw [scanDoc] at hD
  have hfold : (D ++ tail).foldlM scanStep scanInit = tail.foldlM scanStep st := by
    rw [List.foldlM_append, hD]
    rfl
  rw [getFormatsFromSrc, scanDoc, hfold, htag]
  rfl

/-- Witness for C3 (amended): a tag opened with a continuation flag,
followed by one further continuation line and end of document. -/
theorem scanner_drops_unclosed_region_witness :
    scanDoc [tagOpenCont] = Except.ok ⟨true, '{' :: blanks 28, []⟩ ∧
      (⟨true, '{' :: blanks 28, []⟩ : ScanSt).isHtmlJsonTag = true ∧
      (∀ L ∈ [contLine], jsSubstrN L 79 1 = ['-']) ∧
      getFormatsFromSrc ([tagOpenCont] ++ [contLine])
        = Except.ok (⟨true, '{' :: blanks 28, []⟩ : ScanSt).formats :=
  ⟨by rfl, rfl, by decide,
    scanner_drops_unclosed_region [tagOpenCont] [contLine] _ (by rfl) rfl (by decide)⟩

/-! ### Small-step lemmas for the merge engine loop -/

theorem conv1Go_outer_end {model : Jay} {src : List (List Char)} {i : Nat}
    {rcdFmt : Option (List Char)} {acc : List (List Char)} (fu : Nat)
    (h1 : src[i]? = none) :
    conv1Go model src fu (.outer i) rcdFmt acc = .ok acc := by
  cases fu with
  | zero => rfl
  | succ n => rw [conv1Go, h1]

theorem conv1Go_outer_header {model : Jay} {src : List (List Char)} {i : Nat}
    {rcdFmt : Option (List Char)} {acc : List (List Char)} {line : List Char}
    (fu : Nat) (h1 : src[i]? = some line)
    (h2 : jsSubstrN line 5 12 = rcdFmtOpenMark) :
    conv1Go model src (fu + 1) (.outer i) rcdFmt acc =
      conv1Go model src fu (.outer (i + 1))
        (some (jsToUpper (jsTrimRight (jsSubstrN line 18 10)))) (acc ++ [line]) := by
  rw [conv1Go, h1]
  simp only [h2, if_true]

theorem conv1Go_outer_open {model : Jay} {src : List (List Char)} {i : Nat}
    {rcdFmt : Option (List Char)} {acc : List (List Char)} {line : List Char}
    (fu : Nat) (h1 : src[i]? = some line)
    (h2 : jsSubstrN line 5 12 ≠ rcdFmtOpenMark)
    (h3 : jsSubstrN line 5 2 = ['A', ' '] ∧ jsSubstrN line 44 7 = htmlParenBrace) :
    conv1Go model src (fu + 1) (.outer i) rcdFmt acc =
      conv1Go model src fu (.inner i i) rcdFmt acc := by
  rw [conv1Go, h1]
  simp only [if_neg h2, if_pos h3]

theorem conv1Go_outer_copy {model : Jay} {src : List (List Char)} {i : Nat}
    {rcdFmt : Option (List Char)} {acc : List (List Char)} {line : List Char}
    (fu : Nat) (h1 : src[i]? = some line)
    (h2 : jsSubstrN line 5 12 ≠ rcdFmtOpenMark)
    (h3 : ¬(jsSubstrN line 5 2 = ['A', ' '] ∧ jsSubstrN line 44 7 = htmlParenBrace)) :
    conv1Go model src (fu + 1) (.outer i) rcdFmt acc =
      conv1Go model src fu (.outer (i + 1)) rcdFmt (acc ++ [line]) := by
  rw [conv1Go, h1]
  simp only [if_neg h2, if_neg h3]

theorem conv1Go_inner_end {model : Jay} {src : List (List Char)} {iOpen j : Nat}
    {rcdFmt : Option (List Char)} {acc : List (List Char)} (fu : Nat)
    (h1 : src[j]? = none) :
    conv1Go model src fu (.inner iOpen j) rcdFmt acc = .ok acc := by
  cases fu with
  | zero => rfl
  | succ n => rw [conv1Go, h1]

theorem conv1Go_inner_skip {model : Jay} {src : List (List Char)} {iOpen j : Nat}
    {rcdFmt : Option (List Char)} {acc : List (List Char)} {lj : List Char}
    (fu : Nat) (h1 : src[j]? = some lj)
    (h2 : ¬(jsSubstrN lj 5 2 = ['A', ' '] ∧ jsSubstrN lj 79 1 ≠ ['-'])) :
    conv1Go model src (fu + 1) (.inner iOpen j) rcdFmt acc =
      conv1Go model src fu (.inner iOpen (j + 1)) rcdFmt acc := by
  rw [conv1Go, h1]
  simp only [if_neg h2]

theorem conv1Go_inner_last {model : Jay} {src : List (List Char)} {iOpen j : Nat}
    {rcdFmt : Option (List Char)} {acc : List (List Char)} {lj : List Char}
    (fu : Nat) (h1 : src[j]? = some lj)
    (h2 : jsSubstrN lj 5 2 = ['A', ' '] ∧ jsSubstrN lj 79 1 ≠ ['-'])
    (h3 : j = src.length - 1) :
    conv1Go model src (fu + 1) (.inner iOpen j) rcdFmt acc =
      match renderRegion model ((src[iOpen]?).getD []) rcdFmt with
      | .error e => .error e
      | .ok rendered => conv1Go model src fu (.outer (j + 1)) rcdFmt (acc ++ rendered) := by
  rw [conv1Go, h1]
  simp only [if_pos h2, if_pos h3]

theorem conv1Go_inner_found {model : Jay} {src : List (List Char)} {iOpen jp : Nat}
    {rcdFmt : Option (List Char)} {acc : List (List Char)} {lj : List Char}
    (fu : Nat) (h1 : src[jp + 1]? = some lj)
    (h2 : jsSubstrN lj 5 2 = ['A', ' '] ∧ jsSubstrN lj 79 1 ≠ ['-'])
    (h3 : jp + 1 ≠ src.length - 1)
    (h4 : jsSubstrN ((src[jp + 2]?).getD []) 44 6 ≠ htmlParen)
    (h5 : jsLastIndexOf (jsSubstring ((src[jp]?).getD []) 44 79 ++
      jsSubstring lj 44 80) closeBraceMark ≠ -1) :
    conv1Go model src (fu + 1) (.inner iOpen (jp + 1)) rcdFmt acc =
      match renderRegion model ((src[iOpen]?).getD []) rcdFmt with
      | .error e => .error e
      | .ok rendered =>
          conv1Go model src fu (.outer (jp + 2)) rcdFmt (acc ++ rendered) := by
  rw [conv1Go, h1]
  simp only [if_pos h2, if_neg h3, if_pos h4, if_pos h5]

/-! ### Claim C4, amended theorem -/

theorem filterFormats_none {fmts : List Jay} {R : List Char}
    (h : ∀ f ∈ fmts, ∃ nm, screenNameUpper f = Except.ok nm ∧ nm ≠ R) :
    filterFormats fmts (some R) = Except.ok [] := by
  induction fmts with
  | nil => rfl
  | cons f r ih =>
      obtain ⟨nm, hnm, hne⟩ := h f (by simp)
      rw [filterFormats, hnm, ih (fun g hg => h g (by simp [hg]))]
      simp [hne]

theorem mkHeader_substr_5_12 (name : List Char) :
    jsSubstrN (mkHeader name) 5 12 = rcdFmtOpenMark := by
  rw [mkHeader, jsSubstrN, List.drop_append_of_le_length (by decide),
    List.take_append_of_le_length (by decide)]
  decide

theorem mkHeader_substr_18_10 (name : List Char) (hname : name.length = 10) :
    jsSubstrN (mkHeader name) 18 10 = name := by
  rw [mkHeader, jsSubstrN, show (18 : Nat) = hdrPre.length from by decide,
    List.drop_left, ← hname, List.take_length]

/-- C4 (amended): when the original document contains a payload region for a
record-format name the new model has no payload for, the merge does fail
outright — but the failure is an UNLABELED `TypeError` (reading `replace` on
`undefined`, from stringifying the missing format object), identical for
every record-format name; it does not carry the offending name. -/
theorem merge_missing_format_fails (name : List Char) (fmts : List Jay)
    (hname : name.length = 10)
    (hfmts : ∀ f ∈ fmts, ∃ nm, screenNameUpper f = Except.ok nm ∧
      nm ≠ jsToUpper (jsTrimRight name)) :
    conversionV1 (mkModel fmts) [mkHeader name, tagA]
      = Except.error (.typeErrorRead "replace".toList) := by
  rw [conversionV1,
    show 2 * ([mkHeader name, tagA] : List (List Char)).length + 4 = 8 from rfl,
    conv1Go_outer_header 7
      (show ([mkHeader name, tagA] : List (List Char))[0]? = some (mkHeader name)
        from rfl)
      (mkHeader_substr_5_12 name),
    mkHeader_substr_18_10 name hname,
    conv1Go_outer_open 6
      (show ([mkHeader name, tagA] : List (List Char))[0 + 1]? = some tagA from rfl)
      (by decide) (by decide),
    conv1Go_inner_last 5
      (show ([mkHeader name, tagA] : List (List Char))[1]? = some tagA from rfl)
      (by decide) (by rfl)]
  have hmf : renderRegion (mkModel fmts)
      ((([mkHeader name, tagA] : List (List Char))[1]?).getD [])
      (some (jsToUpper (jsTrimRight name)))
      = Except.error (.typeErrorRead "replace".toList) := by
    rw [renderRegion]
    simp only [show modelFormats (mkModel fmts) = Except.ok fmts from rfl,
      filterFormats_none hfmts]
    rfl
  rw [hmf]

/-- Witness for C4 (amended): header name `MISSING`, model containing only
the `FMT1` payload. -/
theorem merge_missing_format_fails_witness :
    ("MISSING   ".toList : List Char).length = 10 ∧
      (∀ f ∈ [P0], ∃ nm, screenNameUpper f = Except.ok nm ∧
        nm ≠ jsToUpper (jsTrimRight "MISSING   ".toList)) ∧
      conversionV1 (mkModel [P0]) [mkHeader "MISSING   ".toList, tagA]
        = Except.error (.typeErrorRead "replace".toList) :=
  ⟨by decide,
    fun f hf => by
      rw [List.mem_singleton.mp hf]
      exact ⟨"FMT1".toList, rfl, by decide⟩,
    merge_missing_format_fails "MISSING   ".toList [P0] (by decide)
      (fun f hf => by
        rw [List.mem_singleton.mp hf]
        exact ⟨"FMT1".toList, rfl, by decide⟩)⟩

/-! ### Claim C7, amended theorem -/

theorem conv1Go_inner_skip_range {model : Jay} (ms : List (List Char)) :
    ∀ (A B : List (List Char)) (iOpen fu : Nat) (rcdFmt : Option (List Char))
      (acc : List (List Char)),
      (∀ m ∈ ms, ¬(jsSubstrN m 5 2 = ['A', ' '] ∧ jsSubstrN m 79 1 ≠ ['-'])) →
      conv1Go model (A ++ ms ++ B) (fu + ms.length) (.inner iOpen A.length) rcdFmt acc
        = conv1Go model (A ++ ms ++ B) fu
            (.inner iOpen (A.length + ms.length)) rcdFmt acc := by
  induction ms with
  | nil => intro A B iOpen fu rcdFmt acc _; simp
  | cons m ms ih =>
      intro A B iOpen fu rcdFmt acc hms
      have h1 : (A ++ (m :: ms) ++ B)[A.length]? = some m := by
        rw [List.append_assoc, List.getElem?_append_right (Nat.le_refl A.length)]
        simp
      have hstep := @conv1Go_inner_skip model (A ++ (m :: ms) ++ B) iOpen A.length
        rcdFmt acc m (fu + ms.length) h1 (hms m (by simp))
      rw [show fu + (m :: ms).length = (fu + ms.length) + 1 from rfl, hstep]
      have hAssoc : A ++ (m :: ms) ++ B = (A ++ [m]) ++ ms ++ B := by simp
      have hlen1 : A.length + 1 = (A ++ [m]).length := by simp
      rw [hAssoc, hlen1, ih (A ++ [m]) B iOpen fu rcdFmt acc
        (fun x hx => hms x (by simp [hx]))]
      have : (A ++ [m]).length + ms.length = A.length + (m :: ms).length := by
        simp [Nat.add_assoc, Nat.add_comm, Nat.add_left_comm]
      rw [this]

/-- C7 (amended): the payload region beginning at a tag-open line extends to
the FIRST subsequent line that (i) carries `A` + blank in columns 6–7 and
(ii) does not continue in column 80, and (iii) is either the last line of
the document, or is followed by a line that does not open ANY `HTML('` tag
while the text `}')` occurs in the window made of the previous line's
columns 45–79 and this line's columns 45–80.  All lines from the open line
through that end line are replaced by the freshly rendered payload, and
lines outside the region are copied unchanged.  (When no such line exists,
the rest of the document is consumed and dropped — see the counterexample.)
Demonstrated for a document [header, open-line, mids…, end-line, plain-line]
with arbitrary interior and following lines satisfying exactly those
conditions. -/
theorem merge_region_boundary (model : Jay) (mids : List (List Char))
    (endL p : List Char) (rnd : List (List Char))
    (hmids : ∀ m ∈ mids, ¬(jsSubstrN m 5 2 = ['A', ' '] ∧ jsSubstrN m 79 1 ≠ ['-']))
    (hend : jsSubstrN endL 5 2 = ['A', ' '] ∧ jsSubstrN endL 79 1 ≠ ['-'])
    (hp1 : jsSubstrN p 44 6 ≠ htmlParen)
    (hbrace : jsLastIndexOf (jsSubstring ((tagOpenCont :: mids).getLast?.getD []) 44 79
      ++ jsSubstring endL 44 80) closeBraceMark ≠ -1)
    (hp2 : jsSubstrN p 5 12 ≠ rcdFmtOpenMark)
    (hp3 : ¬(jsSubstrN p 5 2 = ['A', ' '] ∧ jsSubstrN p 44 7 = htmlParenBrace))
    (hrender : renderRegion model tagOpenCont (some "FMT1".toList) = .ok rnd) :
    conversionV1 model ([hdr] ++ (tagOpenCont :: mids) ++ [endL, p])
      = Except.ok (hdr :: rnd ++ [p]) := by
  set k := mids.length with hk
  have hlen : (([hdr] ++ (tagOpenCont :: mids) ++ [endL, p]) :
      List (List Char)).length = k + 4 := by simp
  have hmsLen : (([hdr] ++ (tagOpenCont :: mids)) : List (List Char)).length
      = k + 2 := by simp
  have hEnd : ([hdr] ++ (tagOpenCont :: mids) ++ [endL, p] :
      List (List Char))[(k + 1) + 1]? = some endL := by
    rw [List.getElem?_append_right (by rw [hmsLen] :
      (([hdr] ++ (tagOpenCont :: mids)) : List (List Char)).length ≤ (k + 1) + 1)]
    rw [hmsLen, show (k + 1) + 1 - (k + 2) = 0 from by omega]
    simp
  have hP : ([hdr] ++ (tagOpenCont :: mids) ++ [endL, p] :
      List (List Char))[(k + 1) + 2]? = some p := by
    rw [List.getElem?_append_right (by rw [hmsLen]; omega :
      (([hdr] ++ (tagOpenCont :: mids)) : List (List Char)).length ≤ (k + 1) + 2)]
    rw [hmsLen, show (k + 1) + 2 - (k + 2) = 1 from by omega]
    simp
  have hPrev : ([hdr] ++ (tagOpenCont :: mids) ++ [endL, p] :
      List (List Char))[k + 1]? = (tagOpenCont :: mids).getLast? := by
    rw [@List.getElem?_append _ ([hdr] ++ (tagOpenCont :: mids)) [endL, p] (k + 1)]
    rw [if_pos (by rw [hmsLen]; omega)]
    rw [List.getElem?_append_right (by simp : ([hdr] : List (List Char)).length ≤ k + 1)]
    rw [List.getLast?_eq_getElem?]
    simp
  have hOpen : ([hdr] ++ (tagOpenCont :: mids) ++ [endL, p] :
      List (List Char))[1]? = some tagOpenCont := by
    simp
  rw [conversionV1, hlen,
    show 2 * (k + 4) + 4 = (2 * k + 11) + 1 from by omega,
    conv1Go_outer_header (2 * k + 11)
      (show ([hdr] ++ (tagOpenCont :: mids) ++ [endL, p] :
        List (List Char))[0]? = some hdr from by simp)
      (by decide),
    show jsToUpper (jsTrimRight (jsSubstrN hdr 18 10)) = "FMT1".toList from by decide,
    List.nil_append,
    show 2 * k + 11 = (2 * k + 10) + 1 from rfl,
    conv1Go_outer_open (2 * k + 10)
      (show ([hdr] ++ (tagOpenCont :: mids) ++ [endL, p] :
        List (List Char))[0 + 1]? = some tagOpenCont from by simp)
      (by decide) (by decide),
    show (0 : Nat) + 1 = ([hdr] : List (List Char)).length from rfl,
    show 2 * k + 10 = (k + 9) + (tagOpenCont :: mids).length from by
      simp only [List.length_cons]
      omega,
    conv1Go_inner_skip_range (tagOpenCont :: mids) [hdr] [endL, p] _ (k + 9) _ _
      (by
        intro m hm
        rcases List.mem_cons.mp hm with h | h
        · subst h; decide
        · exact hmids m h),
    show ([hdr] : List (List Char)).length = 1 from rfl,
    show (1 : Nat) + (tagOpenCont :: mids).length = (k + 1) + 1 from by
      simp only [List.length_cons]
      omega,
    show k + 9 = (k + 8) + 1 from rfl,
    conv1Go_inner_found (k + 8) hEnd hend
      (by rw [List.length_append, hmsLen]; simp)
      (by rw [hP]; exact hp1)
      (by rw [hPrev]; exact hbrace),
    hOpen]
  simp only [Option.getD_some, hrender]
  rw [show k + 8 = (k + 7) + 1 from rfl,
    conv1Go_outer_copy (k + 7) hP hp2 hp3,
    conv1Go_outer_end (k + 7)
      (List.getElem?_eq_none (by rw [hlen]))]
  simp

/-- Witness for C7 (amended): one interior continuation line, a closing line
carrying the `}` and closing marker, and a plain following line. -/
theorem merge_region_boundary_witness :
    (∀ m ∈ [contLine], ¬(jsSubstrN m 5 2 = ['A', ' '] ∧ jsSubstrN m 79 1 ≠ ['-'])) ∧
      (jsSubstrN endTag 5 2 = ['A', ' '] ∧ jsSubstrN endTag 79 1 ≠ ['-']) ∧
      jsSubstrN ['X'] 44 6 ≠ htmlParen ∧
      jsLastIndexOf (jsSubstring ((tagOpenCont :: [contLine]).getLast?.getD []) 44 79
        ++ jsSubstring endTag 44 80) closeBraceMark ≠ -1 ∧
      renderRegion (mkModel [P0]) tagOpenCont (some "FMT1".toList)
        = .ok (htmlObjToDdsLinesJ P0 (blanks 3)) ∧
      conversionV1 (mkModel [P0]) ([hdr] ++ (tagOpenCont :: [contLine]) ++ [endTag, ['X']])
        = Except.ok (hdr :: htmlObjToDdsLinesJ P0 (blanks 3) ++ [['X']]) :=
  ⟨by decide, by decide, by decide, by decide, rfl,
    merge_region_boundary (mkModel [P0]) [contLine] endTag ['X']
      (htmlObjToDdsLinesJ P0 (blanks 3)) (by decide) (by decide) (by decide)
      (by decide) (by decide) (by decide) rfl⟩

/-! ### Claims C9 and C10: renderer line layout -/

theorem toDigitsCore_ne_nil (b : Nat) :
    ∀ (f n : Nat) (acc : List Char), acc ≠ [] → Nat.toDigitsCore b f n acc ≠ [] := by
  intro f
  induction f with
  | zero => intro n acc h; exact h
  | succ f ih =>
      intro n acc h
      rw [Nat.toDigitsCore]
      split
      · simp
      · exact ih _ _ (by simp)

theorem toDigits_ne_nil (m : Nat) : Nat.toDigits 10 m ≠ [] := by
  rw [Nat.toDigits, Nat.toDigitsCore]
  split
  · simp
  · exact toDigitsCore_ne_nil 10 _ _ _ (by simp)

theorem intToDecimal_ne_nil (n : Int) : intToDecimal n ≠ [] := by
  rw [intToDecimal]
  split
  · simp
  · exact toDigits_ne_nil n.natAbs

theorem jstringify_ne_nil (f : Jay) : jstringify f ≠ [] := by
  cases f with
  | jnull => simp [jstringify]
  | jbool b => cases b <;> simp [jstringify]
  | jnum n => exact intToDecimal_ne_nil n
  | jstr s => simp [jstringify, jstrLit]
  | jarr l => simp [jstringify]
  | jobj kvs => simp [jstringify]

theorem escapeQuotes_ne_nil {l : List Char} (h : l ≠ []) : escapeQuotes l ≠ [] := by
  cases l with
  | nil => exact absurd rfl h
  | cons c r =>
      rw [escapeQuotes]
      split <;> simp

theorem fixSingleQuotes_length (l : List (List Char)) :
    (fixSingleQuotes l).length = l.length := by
  match l with
  | [] => rfl
  | [a] => rfl
  | a :: b :: t => simp [fixSingleQuotes]

theorem chunkLoop_ne_nil (bytes : Nat) :
    ∀ fu (data : List Char) (acc : List (List Char)),
      (data ≠ [] ∨ acc ≠ []) → chunkLoop bytes fu data acc ≠ [] := by
  have hfinal : ∀ (data : List Char) (acc : List (List Char)),
      (data ≠ [] ∨ acc ≠ []) → chunkFinal data acc ≠ [] := by
    intro data acc h
    rw [chunkFinal]
    split
    · intro hnil
      have := fixSingleQuotes_length (data :: acc)
      rw [hnil] at this
      simp at this
    · rename_i hlen
      rcases h with h | h
      · cases data with
        | nil => exact absurd rfl h
        | cons c r => simp at hlen
      · exact h
  intro fu
  induction fu with
  | zero => intro data acc h; exact hfinal data acc h
  | succ m ih =>
      intro data acc h
      rw [chunkLoop]
      split
      · refine ih _ _ (Or.inr ?_)
        intro hnil
        have := fixSingleQuotes_length (data.take (chunkSize data bytes) :: acc)
        rw [hnil] at this
        simp at this
      · exact hfinal data acc h

theorem chunkData_ne_nil {data : List Char} (bytes : Nat) (h : data ≠ []) :
    chunkData data bytes ≠ [] := by
  rw [chunkData]
  simp only [ne_eq, List.reverse_eq_nil_iff]
  exact chunkLoop_ne_nil bytes data.length data [] (Or.inl h)

theorem kwdOpen_width : (79 : Int) - (kwdOpen.length : Int) = 35 := by decide

theorem innerLines_stop (fu : Nat) (chunk : List Char) (pos : Int)
    (h : ¬(pos < (chunk.length : Int))) : innerLines fu chunk pos = ([], false) := by
  cases fu with
  | zero => rfl
  | succ m => rw [innerLines, if_neg h]

theorem jsSubstrI_length_le (s : List Char) (st ln : Int) :
    (jsSubstrI s st ln).length ≤ ln.toNat := by
  rw [jsSubstrI]
  split
  · simp
  · simpa using List.length_take_le _ _

theorem jsSubstrI_short {s : List Char} {pos : Int} (hpos : 0 ≤ pos)
    (h : (jsSubstrI s pos 35).length < 35) : ¬(pos + 35 < (s.length : Int)) := by
  rw [jsSubstrI, if_neg (by omega : ¬(35 : Int) ≤ 0)] at h
  rw [if_neg (by omega : ¬pos < 0)] at h
  rw [List.length_take, List.length_drop] at h
  omega

theorem innerLines_last_closed : ∀ (fu : Nat) (chunk : List Char) (pos : Int),
    0 ≤ pos → (innerLines fu chunk pos).2 = true →
    ∃ ls l, (innerLines fu chunk pos).1 = ls ++ [l] ∧ closeMark <:+ l := by
  intro fu
  induction fu with
  | zero => intro chunk pos _ h; simp [innerLines] at h
  | succ m ih =>
      intro chunk pos hpos h
      rw [innerLines] at h ⊢
      by_cases hlt : pos < (chunk.length : Int)
      · rw [if_pos hlt] at h ⊢
        by_cases h79 : (kwdOpen ++ jsSubstrI chunk pos (79 - (kwdOpen.length : Int))).length = 79
        · rw [if_pos h79] at h ⊢
          simp only at h ⊢
          obtain ⟨ls, l, hl, hsfx⟩ := ih chunk (pos + (79 - (kwdOpen.length : Int)))
            (by rw [kwdOpen_width]; omega) h
          exact ⟨(kwdOpen ++ jsSubstrI chunk pos (79 - (kwdOpen.length : Int)) ++ ['-']) :: ls,
            l, by rw [hl]; rfl, hsfx⟩
        · rw [if_neg h79] at h ⊢
          simp only at h ⊢
          have hshort : (jsSubstrI chunk pos 35).length < 35 := by
            rw [List.length_append] at h79
            have h1 := jsSubstrI_length_le chunk pos 35
            rw [kwdOpen_width] at h79
            have h2 : kwdOpen.length = 44 := by decide
            omega
          have hstop := innerLines_stop m chunk (pos + (79 - (kwdOpen.length : Int)))
            (by rw [kwdOpen_width]; exact fun hc => jsSubstrI_short hpos hshort hc)
          rw [hstop]
          exact ⟨[], kwdOpen ++ jsSubstrI chunk pos (79 - (kwdOpen.length : Int)) ++ closeMark,
            rfl, ⟨_, rfl⟩⟩
      · rw [if_neg hlt] at h
        simp at h

theorem chunkTail_last (htmlOpen chunk : List Char)
    (hpos : 0 ≤ (79 : Int) - (htmlOpen.length : Int)) :
    ∃ ls l, chunkTail htmlOpen chunk = ls ++ [l] ∧ closeMark <:+ l := by
  rw [chunkTail]
  by_cases hcl : (innerLines (chunk.length + htmlOpen.length + 2) chunk
      (79 - (htmlOpen.length : Int))).2 = true
  · obtain ⟨ls, l, hl, hsfx⟩ := innerLines_last_closed _ chunk _ hpos hcl
    refine ⟨ls, l, ?_, hsfx⟩
    rw [hcl, hl]
    simp
  · rw [Bool.not_eq_true] at hcl
    rw [hcl]
    exact ⟨_, _, rfl, ⟨_, rfl⟩⟩

theorem renderChunks_last : ∀ (chunks : List (List Char)) (htmlOpen : List Char),
    chunks ≠ [] → 0 ≤ (79 : Int) - (htmlOpen.length : Int) →
    ∃ ls l, renderChunks htmlOpen chunks = ls ++ [l] ∧ closeMark <:+ l := by
  intro chunks
  induction chunks with
  | nil => intro htmlOpen h _; exact absurd rfl h
  | cons c rest ih =>
      intro htmlOpen _ hpos
      rw [renderChunks]
      split
      · exact ⟨[], _, rfl, ⟨_, rfl⟩⟩
      · cases rest with
        | nil =>
            obtain ⟨ls, l, hl, hsfx⟩ := chunkTail_last htmlOpen c hpos
            refine ⟨(htmlOpen ++ jsSubstrI c 0 (79 - (htmlOpen.length : Int)) ++ ['-']) :: ls,
              l, ?_, hsfx⟩
            rw [show renderChunks htmlOpen [] = [] from rfl, List.append_nil, hl]
            rfl
        | cons c2 rest2 =>
            obtain ⟨ls, l, hl, hsfx⟩ := ih htmlOpen (by simp) hpos
            refine ⟨(htmlOpen ++ jsSubstrI c 0 (79 - (htmlOpen.length : Int)) ++ ['-']) ::
              (chunkTail htmlOpen c ++ ls), l, ?_, hsfx⟩
            rw [hl]
            simp

theorem mkHtmlOpen_length (n : List Char) : (mkHtmlOpen n).length = 47 + n.length := by
  simp [mkHtmlOpen, blanks, htmlParen]
  omega

/-- C9: for every payload object and display-line-number tag (at most the 3
characters `substr(38,3)` can produce), the renderer output is non-empty and
its LAST line ends with the closing marker: when no line of the final chunk
was closed by construction, the explicit blank-prefix closing line is
appended. -/
theorem renderer_always_closes (f : Jay) (n : List Char) (hn : n.length ≤ 3) :
    ∃ ls l, htmlObjToDdsLinesJ f n = ls ++ [l] ∧ closeMark <:+ l := by
  rw [htmlObjToDdsLinesJ]
  refine renderChunks_last _ _ ?_ ?_
  · exact chunkData_ne_nil 2500 (escapeQuotes_ne_nil (jstringify_ne_nil f))
  · rw [mkHtmlOpen_length]
    omega

/-- Witness for C9 at the payload `P0` and a blank 3-character tag. -/
theorem renderer_always_closes_witness :
    ((blanks 3 : List Char).length ≤ 3) ∧
      ∃ ls l, htmlObjToDdsLinesJ P0 (blanks 3) = ls ++ [l] ∧ closeMark <:+ l :=
  ⟨by decide, renderer_always_closes P0 (blanks 3) (by decide)⟩

/-- C10, counterexample: rendering the payload `P10` (28 serialized
characters, one short of the 29-column first-line width) produces a
FIRST line of only 79 characters whose continuation dash sits at index 78,
with a closing line after it: the line is not the last of its chunk, yet
column 80 (index 79) does not carry the continuation character, so the
parser's column-80 test misreads it. -/
theorem renderer_continuation_off_by_one :
    (htmlObjToDdsLinesJ P10 (blanks 3)).length = 2 ∧
      ((htmlObjToDdsLinesJ P10 (blanks 3)).head?.map
        (fun l => (l.length, l[79]?, l[78]?))) = some (79, none, some '-') := by
  decide

theorem get79_iff {l : List Char} (hlen : l.length ≤ 80) :
    l[79]? = some '-' ↔ (l.getLast? = some '-' ∧ l.length = 80) := by
  constructor
  · intro h
    obtain ⟨hlt, hval⟩ := List.getElem?_eq_some.mp h
    have h80 : l.length = 80 := by omega
    refine ⟨?_, h80⟩
    rw [List.getLast?_eq_getElem?, h80]
    exact h
  · rintro ⟨hl, h80⟩
    rw [List.getLast?_eq_getElem?, h80] at hl
    exact hl

theorem innerLines_mem : ∀ (fu : Nat) (chunk : List Char) (pos : Int),
    ∀ l ∈ (innerLines fu chunk pos).1, LineShape l := by
  intro fu
  induction fu with
  | zero => intro chunk pos l hl; simp [innerLines] at hl
  | succ m ih =>
      intro chunk pos l hl
      rw [innerLines] at hl
      by_cases hlt : pos < (chunk.length : Int)
      · rw [if_pos hlt] at hl
        have hsub : (jsSubstrI chunk pos (79 - (kwdOpen.length : Int))).length ≤ 35 := by
          have h := jsSubstrI_length_le chunk pos (79 - (kwdOpen.length : Int))
          rw [kwdOpen_width] at h
          simpa using h
        by_cases h79 : (kwdOpen ++ jsSubstrI chunk pos (79 - (kwdOpen.length : Int))).length = 79
        · rw [if_pos h79] at hl
          simp only [List.mem_cons] at hl
          rcases hl with rfl | hl
          · refine ⟨?_, Or.inr ⟨List.getLast?_concat _, Or.inl ?_⟩⟩
            · rw [List.length_append, h79]; decide
            · rw [List.length_append, h79]; rfl
          · exact ih chunk _ l hl
        · rw [if_neg h79] at hl
          simp only [List.mem_cons] at hl
          rcases hl with rfl | hl
          · have hk44 : kwdOpen.length = 44 := by decide
            rw [List.length_append] at h79
            refine ⟨?_, Or.inl ⟨kwdOpen ++ jsSubstrI chunk pos (79 - (kwdOpen.length : Int)), rfl⟩⟩
            rw [List.length_append, List.length_append]
            have hc : closeMark.length = 2 := by decide
            omega
          · exact ih chunk _ l hl
      · rw [if_neg hlt] at hl
        simp at hl

theorem chunkTail_mem (htmlOpen chunk : List Char) :
    ∀ l ∈ chunkTail htmlOpen chunk, LineShape l := by
  intro l hl
  rw [chunkTail] at hl
  rcases List.mem_append.mp hl with h | h
  · exact innerLines_mem _ chunk _ l h
  · split at h
    · simp at h
    · rw [List.mem_singleton.mp h]
      exact ⟨by decide, Or.inl ⟨_, rfl⟩⟩

theorem renderChunks_mem : ∀ (chunks : List (List Char)) (htmlOpen : List Char),
    htmlOpen.length = 50 →
    ∀ l ∈ renderChunks htmlOpen chunks, LineShape l := by
  intro chunks
  induction chunks with
  | nil => intro htmlOpen _ l hl; simp [renderChunks] at hl
  | cons c rest ih =>
      intro htmlOpen h50 l hl
      rw [renderChunks] at hl
      have hsub := jsSubstrI_length_le c 0 (79 - (htmlOpen.length : Int))
      rw [h50] at hsub
      split at hl
      · rename_i hfits
        rw [h50] at hfits
        rw [List.mem_singleton.mp hl]
        constructor
        · rw [List.append_assoc, List.length_append, List.length_append, h50]
          have : closeMark.length = 2 := by decide
          omega
        · exact Or.inl ⟨_, by rw [List.append_assoc]⟩
      · rename_i hfits
        rw [h50] at hfits
        simp only [List.mem_cons] at hl
        rcases hl with rfl | hl
        · constructor
          · rw [List.append_assoc, List.length_append, List.length_append, h50]
            simp only [List.length_singleton]
            omega
          · refine Or.inr ⟨List.getLast?_concat _, ?_⟩
            rw [List.append_assoc, List.length_append, List.length_append, h50]
            simp only [List.length_singleton]
            omega
        · rcases List.mem_append.mp hl with h | h
          · exact chunkTail_mem htmlOpen c l h
          · exact ih htmlOpen h50 l h

/-- C10 (amended): with a 3-character display-line-number tag, every
rendered line has at most 80 characters, and every line either ends with
the closing marker or ends with the continuation dash on a line of exactly
80 or exactly 79 characters; the parser's column-80 test (index 79 holding
the dash) therefore recognizes a continuation line IF AND ONLY IF the line
is exactly 80 characters long — the 79-character case (first line of a
chunk whose text is one character short of full width, see the
counterexample) carries its dash at index 78 instead, where the test
misses it. -/
theorem renderer_line_shapes (f : Jay) (n : List Char) (hn : n.length = 3) :
    ∀ l ∈ htmlObjToDdsLinesJ f n,
      l.length ≤ 80 ∧
        (closeMark <:+ l ∨ (l.getLast? = some '-' ∧ (l.length = 80 ∨ l.length = 79))) ∧
        (l[79]? = some '-' ↔ (l.getLast? = some '-' ∧ l.length = 80)) := by
  intro l hl
  rw [htmlObjToDdsLinesJ] at hl
  have hshape := renderChunks_mem _ (mkHtmlOpen n)
    (by rw [mkHtmlOpen_length, hn]) l hl
  exact ⟨hshape.1, hshape.2, get79_iff hshape.1⟩

/-- Witness for C10 (amended) at the payload `P0` and blank tag. -/
theorem renderer_line_shapes_witness :
    ((blanks 3 : List Char).length = 3) ∧
      ∀ l ∈ htmlObjToDdsLinesJ P0 (blanks 3),
        l.length ≤ 80 ∧
          (closeMark <:+ l ∨ (l.getLast? = some '-' ∧ (l.length = 80 ∨ l.length = 79))) ∧
          (l[79]? = some '-' ↔ (l.getLast? = some '-' ∧ l.length = 80)) :=
  ⟨by decide, renderer_line_shapes P0 (blanks 3) (by decide)⟩

/-- Unfolding equation for `fieldNameTail`. -/
theorem fieldNameTail_eq (fv : Jay) :
    fieldNameTail fv =
      if jTruthy fv = true then
        (match fv with
          | Jay.jstr s => Except.ok [jsToUpper s]
          | _ => Except.error (JsErr.typeErrorNotFunction "toUpperCase".toList))
      else Except.ok [] := by
  cases fv <;> rfl

/-- Membership in one property value's `getBoundFields` contribution: the
value is object-typed and carries a truthy string `fieldName`, and the
member is its upper-casing. -/
theorem fieldNameOf_ok_mem (v : Jay) (a : List (List Char)) (f : List Char)
    (h : fieldNameOf v = Except.ok a) :
    f ∈ a ↔ (typeofObject v = true ∧
      ∃ s, jAccess v "fieldName".toList = Except.ok (some (Jay.jstr s)) ∧
        s ≠ [] ∧ f = jsToUpper s) := by
  rw [fieldNameOf] at h
  by_cases ht : typeofObject v = true
  · rw [if_pos ht] at h
    cases hja : jAccess v ("fieldName".toList) with
    | error e =>
        rw [hja] at h
        have h2 : (Except.error e : Except JsErr (List (List Char))) = Except.ok a := h
        exact absurd h2 (by simp)
    | ok o =>
        rw [hja] at h
        cases o with
        | none =>
            have h2 : (Except.ok [] : Except JsErr (List (List Char))) = Except.ok a := h
            simp only [Except.ok.injEq] at h2
            subst h2
            simp only [List.not_mem_nil, false_iff]
            rintro ⟨-, s, hja2, -, -⟩
            exact absurd hja2 (by simp)
        | some fv =>
            have h3 : fieldNameTail fv = Except.ok a := h
            rw [fieldNameTail_eq] at h3
            by_cases htr : jTruthy fv = true
            · rw [if_pos htr] at h3
              cases fv with
              | jstr s =>
                  have h2 : (Except.ok [jsToUpper s] :
                      Except JsErr (List (List Char))) = Except.ok a := h3
                  simp only [Except.ok.injEq] at h2
                  subst h2
                  simp only [jTruthy, decide_eq_true_eq] at htr
                  constructor
                  · intro hf
                    rw [List.mem_singleton] at hf
                    exact ⟨ht, s, rfl, htr, hf⟩
                  · rintro ⟨-, t, hja2, -, rfl⟩
                    simp only [Except.ok.injEq, Option.some.injEq, Jay.jstr.injEq] at hja2
                    rw [hja2]
                    exact List.mem_singleton.mpr rfl
              | jnull =>
                  exact absurd htr (by simp [jTruthy])
              | jbool b =>
                  have h2 : (Except.error (JsErr.typeErrorNotFunction "toUpperCase".toList) :
                      Except JsErr (List (List Char))) = Except.ok a := h3
                  exact absurd h2 (by simp)
              | jnum n =>
                  have h2 : (Except.error (JsErr.typeErrorNotFunction "toUpperCase".toList) :
                      Except JsErr (List (List Char))) = Except.ok a := h3
                  exact absurd h2 (by simp)
              | jarr l =>
                  have h2 : (Except.error (JsErr.typeErrorNotFunction "toUpperCase".toList) :
                      Except JsErr (List (List Char))) = Except.ok a := h3
                  exact absurd h2 (by simp)
              | jobj kvs =>
                  have h2 : (Except.error (JsErr.typeErrorNotFunction "toUpperCase".toList) :
                      Except JsErr (List (List Char))) = Except.ok a := h3
                  exact absurd h2 (by simp)
            · rw [if_neg htr] at h3
              simp only [Except.ok.injEq] at h3
              subst h3
              simp only [List.not_mem_nil, false_iff]
              rintro ⟨-, s, hja2, hs, -⟩
              simp only [Except.ok.injEq, Option.some.injEq] at hja2
              rw [hja2] at htr
              exact htr (by simp [jTruthy, hs])
  · rw [if_neg ht] at h
    have h2 : (Except.ok [] : Except JsErr (List (List Char))) = Except.ok a := h
    simp only [Except.ok.injEq] at h2
    subst h2
    simp only [List.not_mem_nil, false_iff]
    rintro ⟨ht2, -⟩
    exact ht ht2

/-- Membership in the collected contributions of a value list. -/
theorem collectVals_ok_mem (vs : List Jay) (a : List (List Char)) (f : List Char)
    (h : collectVals vs = Except.ok a) :
    f ∈ a ↔ ∃ v ∈ vs, typeofObject v = true ∧
      ∃ s, jAccess v "fieldName".toList = Except.ok (some (Jay.jstr s)) ∧
        s ≠ [] ∧ f = jsToUpper s := by
  induction vs generalizing a with
  | nil =>
      rw [collectVals] at h
      simp only [Except.ok.injEq] at h
      subst h
      simp
  | cons v r ih =>
      rw [collectVals] at h
      cases hv : fieldNameOf v with
      | error e =>
          rw [hv] at h
          have h2 : (Except.error e : Except JsErr (List (List Char))) = Except.ok a := h
          exact absurd h2 (by simp)
      | ok av =>
          rw [hv] at h
          cases hr : collectVals r with
          | error e =>
              rw [hr] at h
              have h2 : (Except.error e : Except JsErr (List (List Char))) = Except.ok a := h
              exact absurd h2 (by simp)
          | ok b =>
              rw [hr] at h
              have h2 : (Except.ok (av ++ b) :
                  Except JsErr (List (List Char))) = Except.ok a := h
              simp only [Except.ok.injEq] at h2
              subst h2
              rw [List.mem_append, fieldNameOf_ok_mem v av f hv, ih b hr]
              constructor
              · rintro (hl | ⟨w, hw, hp⟩)
                · exact ⟨v, List.mem_cons_self v r, hl⟩
                · exact ⟨w, List.mem_cons_of_mem v hw, hp⟩
              · rintro ⟨w, hw, hp⟩
                rcases List.mem_cons.mp hw with rfl | hmem
                · exact Or.inl hp
                · exact Or.inr ⟨w, hmem, hp⟩

/-- Membership in the bound fields collected over an item list. -/
theorem collectItems_ok_mem (its : List Jay) (a : List (List Char)) (f : List Char)
    (h : collectItems its = Except.ok a) :
    f ∈ a ↔ ∃ it ∈ its, ∃ v ∈ ownValues it, typeofObject v = true ∧
      ∃ s, jAccess v "fieldName".toList = Except.ok (some (Jay.jstr s)) ∧
        s ≠ [] ∧ f = jsToUpper s := by
  induction its generalizing a with
  | nil =>
      rw [collectItems] at h
      simp only [Except.ok.injEq] at h
      subst h
      simp
  | cons it r ih =>
      rw [collectItems] at h
      cases hv : collectVals (ownValues it) with
      | error e =>
          rw [hv] at h
          have h2 : (Except.error e : Except JsErr (List (List Char))) = Except.ok a := h
          exact absurd h2 (by simp)
      | ok av =>
          rw [hv] at h
          cases hr : collectItems r with
          | error e =>
              rw [hr] at h
              have h2 : (Except.error e : Except JsErr (List (List Char))) = Except.ok a := h
              exact absurd h2 (by simp)
          | ok b =>
              rw [hr] at h
              have h2 : (Except.ok (av ++ b) :
                  Except JsErr (List (List Char))) = Except.ok a := h
              simp only [Except.ok.injEq] at h2
              subst h2
              rw [List.mem_append, collectVals_ok_mem (ownValues it) av f hv, ih b hr]
              constructor
              · rintro (hl | ⟨w, hw, hp⟩)
                · exact ⟨it, List.mem_cons_self it r, hl⟩
                · exact ⟨w, List.mem_cons_of_mem it hw, hp⟩
              · rintro ⟨w, hw, hp⟩
                rcases List.mem_cons.mp hw with rfl | hmem
                · exact Or.inl hp
                · exact Or.inr ⟨w, hmem, hp⟩

/-- On a payload object `{items: [...]}` the bound-field collection is the
item collection. -/
theorem getBoundFields_items (items : List Jay) :
    getBoundFields (Jay.jobj [("items".toList, Jay.jarr items)]) =
      collectItems items := rfl

/-- C8 (counterexample): `getBoundFields` does NOT recursively walk the
payload tree — on a payload whose only `fieldName` sits three levels deep
(`items: [{a: {b: {fieldName: "F1"}}}]`) it collects nothing, while the
recursive walk described by the claim collects `F1`. -/
theorem boundFields_not_recursive :
    getBoundFields fmtC = Except.ok [] ∧
      specBoundFields fmtC = ["F1".toList] ∧
      Except.ok (specBoundFields fmtC) ≠ getBoundFields fmtC := by
  refine ⟨rfl, rfl, ?_⟩
  decide

set_option maxRecDepth 8192 in
/-- C8 (amended): the bound-field set of a payload `{items: [...]}` is the
collection at depth exactly two — upper-cased truthy string `fieldName`
properties of the object-typed DIRECT property values of each item, with
no deeper recursion; and the Raw-Text Assembler drops a hidden
(`H` in column 38) field-definition line exactly when its right-trimmed
name is in that set: on `doc8a` the hidden bound field `FLD1` is dropped
from the echo, on `doc8b` the hidden unbound field `FLD2` is kept. -/
theorem boundFields_depth_two_and_hidden_drop :
    (∀ (items : List Jay) (bs : List (List Char)) (f : List Char),
      getBoundFields (Jay.jobj [("items".toList, Jay.jarr items)]) = Except.ok bs →
      (f ∈ bs ↔ ∃ it ∈ items, ∃ v ∈ ownValues it, typeofObject v = true ∧
        ∃ s, jAccess v "fieldName".toList = Except.ok (some (Jay.jstr s)) ∧
          s ≠ [] ∧ f = jsToUpper s)) ∧
    getDdsFromSrc doc8a = Except.ok [hdrPre ++ "F1".toList] ∧
    getDdsFromSrc doc8b =
      Except.ok [hdrPre ++ "F1".toList, mkFieldLine "FLD2".toList] := by
  refine ⟨?_, by decide, by decide⟩
  intro items bs f h
  rw [getBoundFields_items] at h
  exact collectItems_ok_mem items bs f h

/-- Witness for C8 (amended): the depth-two characterization applied to
the concrete item list of `P8`, whose bound set is `[FLD1]`. -/
theorem boundFields_depth_two_and_hidden_drop_witness :
    getBoundFields (Jay.jobj [("items".toList,
        Jay.jarr [Jay.jobj [("a".toList,
          Jay.jobj [("fieldName".toList, Jay.jstr "FLD1".toList)])]])]) =
      Except.ok ["FLD1".toList] ∧
    (("FLD1".toList : List Char) ∈ (["FLD1".toList] : List (List Char)) ↔
      ∃ it ∈ [Jay.jobj [("a".toList,
          Jay.jobj [("fieldName".toList, Jay.jstr "FLD1".toList)])]],
        ∃ v ∈ ownValues it, typeofObject v = true ∧
          ∃ s, jAccess v "fieldName".toList = Except.ok (some (Jay.jstr s)) ∧
            s ≠ [] ∧ ("FLD1".toList : List Char) = jsToUpper s) :=
  ⟨by decide, boundFields_depth_two_and_hidden_drop.1
    [Jay.jobj [("a".toList, Jay.jobj [("fieldName".toList, Jay.jstr "FLD1".toList)])]]
    ["FLD1".toList] "FLD1".toList (by decide)⟩

end ProfoundUtils
